import Mathlib

/-!
# Verification of the `rust_json_parser` repository

A shallow embedding, at the byte level, of the JSON codec in
`src/json/mod.rs`, `src/json/parser.rs` and `src/main.rs`.

Modelling conventions:

* A byte slice `&[u8]` is a `List Nat` whose members are byte values.
* The nom-4 result `IResult` is the inductive `POut`: `ok rest value`
  models `Ok((rest, value))`, `incomplete` models `Err(Incomplete(_))`,
  `malformed` models `Err(Error(_))` (and `Err(Failure(_))`, which the
  code never produces).  A Rust `panic!`/`unwrap` failure, which aborts
  the process rather than returning an error, is the fourth outcome
  `panicked`; it propagates through every combinator, as unwinding does.
* The nom-4 combinators used by the source (`tag_s!`, `is_not!`,
  `take!`, `alt!`, `opt!`, `many0!`, `separated_list_complete!`,
  `digit`, `char!`, `recognize!`) are reproduced with their streaming
  semantics: matching a strict prefix of the input that could still be
  completed yields `incomplete`; `alt!` and `opt!` propagate
  `incomplete` without trying further alternatives; `many0!` and
  `separated_list!` stop at an `Error` of the inner parser and insist
  that each iteration consume input.  The looping combinators and the
  recursion of `parse_json_element` into arrays and objects are given a
  `Nat` fuel so that every definition is structurally recursive; the
  fuel chosen at each call site (`length of the input + 1`) exceeds the
  number of iterations any run can perform, because every iteration
  and every nesting level consumes at least one byte, so the fuel-out
  branches are unreachable.
* Rust `f64` is abstracted as `ℚ`: `nom::double` recognises the same
  byte language as `recognize_float` and the recognised decimal literal
  is evaluated exactly (`ratOfLit`) instead of being rounded to the
  nearest double, and the `Display` rendering of a number is its exact
  decimal expansion (`fmtNumber`).  Every finite `f64` is a rational
  with a finite decimal expansion, and on such values `Display`
  round-trips through parsing in Rust exactly as `fmtNumber` does
  through `ratOfLit` here; NaN and the infinities are outside the
  model.
* A Rust `String` is the `List Nat` of its UTF-8 bytes, and
  `HashMap<String, JsonNode>` is an association list with unique keys
  (`JsonPairs`), with `insert`/`get`/`len` as `hmInsert`/`hmGet`/
  `hmLen` and with the order-insensitive `PartialEq` of `HashMap`
  reproduced by `nodeEq`.
-/

/-- The four outcomes of one parser invocation: nom's `Ok((rest, value))`,
`Err(Incomplete(_))` and `Err(Error(_))`, plus an aborting Rust panic. -/
inductive POut (α : Type) : Type where
  | ok (rest : List Nat) (value : α)
  | incomplete
  | malformed
  | panicked
deriving Repr

/-- A parser over byte slices, as used throughout `parser.rs`. -/
abbrev P (α : Type) : Type := List Nat → POut α

/-- Sequence two parsers, threading the remaining input (`do_parse!`). -/
def pbind {α β : Type} (p : P α) (f : α → P β) : P β := fun input =>
  match p input with
  | .ok rest a => f a rest
  | .incomplete => .incomplete
  | .malformed => .malformed
  | .panicked => .panicked

/-- Apply a pure function to a parser's result (`map!`). -/
def pmap {α β : Type} (p : P α) (f : α → β) : P β := fun input =>
  match p input with
  | .ok rest a => .ok rest (f a)
  | .incomplete => .incomplete
  | .malformed => .malformed
  | .panicked => .panicked

/-- A parser that consumes nothing and yields `a`. -/
def pureP {α : Type} (a : α) : P α := fun input => .ok input a

/-- nom's `alt!`: try `p`; on `Error` (and only then) try `q`.
`Incomplete` and a panic short-circuit the alternation. -/
def altP {α : Type} (p q : P α) : P α := fun input =>
  match p input with
  | .malformed => q input
  | r => r

/-- nom's `opt!`: `Error` becomes `none` without consuming input, while
`Incomplete` (and a panic) still propagate. -/
def optP {α : Type} (p : P α) : P (Option α) := fun input =>
  match p input with
  | .ok rest a => .ok rest (some a)
  | .malformed => .ok input none
  | .incomplete => .incomplete
  | .panicked => .panicked

/-- nom's `complete!`: turn `Incomplete` into `Error`. -/
def completeP {α : Type} (p : P α) : P α := fun input =>
  match p input with
  | .incomplete => .malformed
  | r => r

/-- nom's `tag_s!`: a mismatch inside the overlap of input and tag is an
`Error`; a full match of an input that is shorter than the tag is
`Incomplete`; otherwise the tag is consumed. -/
def tagP (t : List Nat) : P Unit := fun input =>
  if (input.zip t).all (fun p => p.1 == p.2) then
    if t.length ≤ input.length then .ok (input.drop t.length) () else .incomplete
  else .malformed

/-- nom's `is_not!`: the maximal nonempty run of bytes outside `bad`.
Reaching the end of input without meeting a byte of `bad` is
`Incomplete` (the run could extend); a first byte inside `bad` is an
`Error`. -/
def isNotP (bad : List Nat) : P (List Nat) := fun input =>
  let run := input.takeWhile fun b => !bad.contains b
  if run.length = input.length then .incomplete
  else if run.length = 0 then .malformed
  else .ok (input.drop run.length) run

/-- nom's `take!(n)`: exactly `n` bytes, `Incomplete` when fewer remain. -/
def takeP (n : Nat) : P (List Nat) := fun input =>
  if n ≤ input.length then .ok (input.drop n) (input.take n) else .incomplete

/-- nom's `char!(c)` on bytes: `Incomplete` on empty input, `Error` on a
mismatching first byte. -/
def charP (c : Nat) : P Unit := fun input =>
  match input with
  | [] => .incomplete
  | b :: rest => if b = c then .ok rest () else .malformed

/-- An ASCII decimal digit byte. -/
def isDigitByte (b : Nat) : Bool := 48 ≤ b && b ≤ 57

/-- nom's streaming `digit`: a maximal nonempty digit run; all-digits to
the end of input is `Incomplete`, a leading non-digit is an `Error`. -/
def digitP : P (List Nat) := fun input =>
  let run := input.takeWhile isDigitByte
  if run.length = input.length then .incomplete
  else if run.length = 0 then .malformed
  else .ok (input.drop run.length) run

/-- nom's `many0!` with explicit fuel.  The inner parser's `Error` ends
the loop; `Incomplete` and panics propagate; an iteration that consumes
nothing is rejected (nom's `Many0` error).  Call sites pass
`input.length + 1` as fuel, which the loop can never exhaust because
each iteration consumes at least one byte. -/
def many0F {α : Type} : Nat → P α → P (List α)
  | 0, _, _ => .malformed
  | fuel + 1, p, input =>
    match p input with
    | .malformed => .ok input []
    | .incomplete => .incomplete
    | .panicked => .panicked
    | .ok rest a =>
      if rest.length < input.length then
        match many0F fuel p rest with
        | .ok r tl => .ok r (a :: tl)
        | e => e
      else .malformed

/-- The `(separator element)*` tail loop of nom's `separated_list!`: on
an `Error` of the separator, or of the element after the separator, the
loop stops and backtracks to before that separator.  Fueled like
`many0F`; the no-progress branch is unreachable for the parsers used
here, all of which consume input when they succeed. -/
def sepTailF {α : Type} : Nat → P Unit → P α → List Nat → POut (List α)
  | 0, _, _, _ => .malformed
  | fuel + 1, sep, elem, input =>
    match sep input with
    | .malformed => .ok input []
    | .incomplete => .incomplete
    | .panicked => .panicked
    | .ok i2 _ =>
      match elem i2 with
      | .malformed => .ok input []
      | .incomplete => .incomplete
      | .panicked => .panicked
      | .ok i3 a =>
        if i3.length < input.length then
          match sepTailF fuel sep elem i3 with
          | .ok r tl => .ok r (a :: tl)
          | e => e
        else .ok input []

/-- nom's `separated_list!`: an `Error` of the first element yields the
empty list without consuming input; a first element that consumes
nothing is an `Error` (nom's `SeparatedList`); then the fueled tail
loop. -/
def separated_list {α : Type} (sep : P Unit) (elem : P α) : P (List α) := fun input =>
  match elem input with
  | .malformed => .ok input []
  | .incomplete => .incomplete
  | .panicked => .panicked
  | .ok i1 a =>
    if i1.length < input.length then
      match sepTailF (i1.length + 1) sep elem i1 with
      | .ok r tl => .ok r (a :: tl)
      | e => e
    else .malformed

/-- nom's `recognize!`: run `p` and return the consumed prefix. -/
def recognizeP {α : Type} (p : P α) : P (List Nat) := fun input =>
  match p input with
  | .ok rest _ => .ok rest (input.take (input.length - rest.length))
  | .incomplete => .incomplete
  | .malformed => .malformed
  | .panicked => .panicked

/-- `opt!(alt!(char!(43) | char!(45)))`: an optional sign. -/
def signAlt : P Unit := altP (charP 43) (charP 45)

/-- `opt!(pair!(char!(46), opt!(digit)))`: an optional point with
optional fraction digits. -/
def fracPart : P (Option Unit) :=
  optP (pbind (charP 46) fun _ => pmap (optP digitP) fun _ => ())

/-- First mantissa alternative: digits, then an optional fraction. -/
def mantissaA : P Unit := pbind digitP fun _ => pmap fracPart fun _ => ()

/-- Second mantissa alternative: a point, then digits. -/
def mantissaB : P Unit := pbind (charP 46) fun _ => pmap digitP fun _ => ()

/-- `opt!` of the exponent: `e`/`E`, optional sign, digits. -/
def expPart : P (Option Unit) :=
  optP (pbind (altP (charP 101) (charP 69)) fun _ =>
    pbind (optP signAlt) fun _ => pmap digitP fun _ => ())

/-- The body of nom 4's `recognize_float`: optional sign, then either
`digit (. digit?)?` or `. digit`, then an optional exponent
`e|E sign? digit`. -/
def floatBody : P Unit :=
  pbind (optP signAlt) fun _ =>
  pbind (altP mantissaA mantissaB) fun _ =>
  pmap expPart fun _ => ()

/-- nom 4's `recognize_float`. -/
def recognize_float : P (List Nat) := recognizeP floatBody

/-- Decimal value of a digit-byte run (`foldl`, most significant first). -/
def natOfDigits (ds : List Nat) : Nat := ds.foldl (fun a d => a * 10 + (d - 48)) 0

/-- Exponent part of a float literal after the `e`/`E`: optional sign,
then digits. -/
def litExp (t : List Nat) : ℤ :=
  if t.head? = some 43 then (natOfDigits (t.tail.takeWhile isDigitByte) : ℤ)
  else if t.head? = some 45 then -(natOfDigits (t.tail.takeWhile isDigitByte) : ℤ)
  else (natOfDigits (t.takeWhile isDigitByte) : ℤ)

/-- Value of a float literal from its integer digits, fraction digits
and what follows them (an optional exponent). -/
def ratOfLitExp (intDs fracDs s3 : List Nat) : ℚ :=
  ((natOfDigits intDs : ℚ) + (natOfDigits fracDs : ℚ) / (10 : ℚ) ^ fracDs.length)
    * (10 : ℚ) ^ (if s3.head? = some 101 ∨ s3.head? = some 69 then litExp s3.tail else 0)

/-- Split the optional `. fraction` off what follows the integer
digits. -/
def ratOfLitFrac (intDs s2 : List Nat) : ℚ :=
  if s2.head? = some 46 then
    ratOfLitExp intDs (s2.tail.takeWhile isDigitByte)
      (s2.tail.drop (s2.tail.takeWhile isDigitByte).length)
  else ratOfLitExp intDs [] s2

/-- Value of an unsigned float literal: integer digits, an optional
point with fraction digits, an optional exponent. -/
def ratOfLitAbs (s1 : List Nat) : ℚ :=
  ratOfLitFrac (s1.takeWhile isDigitByte) (s1.drop (s1.takeWhile isDigitByte).length)

/-- Exact rational value of a recognised float literal; this models the
`parse_to!(f64)` step of `nom::double` (with the rounding to the
nearest double abstracted away, per the conventions above). -/
def ratOfLit (s : List Nat) : ℚ :=
  if s.head? = some 45 then -ratOfLitAbs s.tail
  else if s.head? = some 43 then ratOfLitAbs s.tail
  else ratOfLitAbs s

/-- `nom::double`: recognise a float literal, then convert it. -/
def double : P ℚ := pbind recognize_float fun lit => pureP (ratOfLit lit)

/-! ## UTF-8 and the value model -/

/-- A UTF-8 continuation byte `0x80..0xBF`. -/
def isCont (b : Nat) : Bool := 128 ≤ b && b ≤ 191

/-- Validity of a byte sequence as UTF-8, exactly as `String::from_utf8`
checks it (overlong encodings, surrogates and values above U+10FFFF are
rejected). -/
def validUtf8 : List Nat → Bool
  | [] => true
  | b :: rest =>
    if b ≤ 127 then validUtf8 rest
    else if 194 ≤ b && b ≤ 223 then
      match rest with
      | c :: r => isCont c && validUtf8 r
      | [] => false
    else if b = 224 then
      match rest with
      | c :: d :: r => (160 ≤ c && c ≤ 191) && isCont d && validUtf8 r
      | _ => false
    else if (225 ≤ b && b ≤ 236) || b = 238 || b = 239 then
      match rest with
      | c :: d :: r => isCont c && isCont d && validUtf8 r
      | _ => false
    else if b = 237 then
      match rest with
      | c :: d :: r => (128 ≤ c && c ≤ 159) && isCont d && validUtf8 r
      | _ => false
    else if b = 240 then
      match rest with
      | c :: d :: e :: r => (144 ≤ c && c ≤ 191) && isCont d && isCont e && validUtf8 r
      | _ => false
    else if 241 ≤ b && b ≤ 243 then
      match rest with
      | c :: d :: e :: r => isCont c && isCont d && isCont e && validUtf8 r
      | _ => false
    else if b = 244 then
      match rest with
      | c :: d :: e :: r => (128 ≤ c && c ≤ 143) && isCont d && isCont e && validUtf8 r
      | _ => false
    else false

/-- UTF-8 encoding of a Unicode scalar value (`char::encode_utf8`). -/
def encode_utf8 (c : Nat) : List Nat :=
  if c < 128 then [c]
  else if c < 2048 then [192 + c / 64, 128 + c % 64]
  else if c < 65536 then [224 + c / 4096, 128 + c / 64 % 64, 128 + c % 64]
  else [240 + c / 262144, 128 + c / 4096 % 64, 128 + c / 64 % 64, 128 + c % 64]

/-- `std::char::from_u32`: `none` on surrogates and on values above
U+10FFFF. -/
def char_from_u32 (v : Nat) : Option Nat :=
  if v < 1114112 ∧ ¬(55296 ≤ v ∧ v ≤ 57343) then some v else none

/-- Value of an ASCII hex digit byte. -/
def hexVal (b : Nat) : Option Nat :=
  if 48 ≤ b ∧ b ≤ 57 then some (b - 48)
  else if 97 ≤ b ∧ b ≤ 102 then some (b - 97 + 10)
  else if 65 ≤ b ∧ b ≤ 70 then some (b - 65 + 10)
  else none

/-- `u32::from_str_radix(s, 16)` on the bytes of `s`: an optional
leading `+` (a `-` is rejected for an unsigned target), then at least
one hex digit; `none` models the `Err` case.  Four hex digits never
overflow `u32`, so no wraparound is modelled. -/
def fromStrRadix16 (s : List Nat) : Option Nat :=
  let digits : List Nat := match s with | 43 :: t => t | _ => s
  if digits.isEmpty then none
  else if digits.all (fun b => (hexVal b).isSome) then
    some (digits.foldl (fun a b => a * 16 + ((hexVal b).getD 0)) 0)
  else none

/-- `codepoint_from_hex` of `parser.rs`: `String::from_utf8(..).unwrap()`,
`u32::from_str_radix(.., 16).unwrap()`, `char::from_u32(..).unwrap()`,
then `encode_utf8`.  Each `unwrap` panics on failure, so `none` here
means the process aborts. -/
def codepoint_from_hex (input : List Nat) : Option (List Nat) :=
  if validUtf8 input then
    match fromStrRadix16 input with
    | some v => (char_from_u32 v).map encode_utf8
    | none => none
  else none

mutual
/-- The `JsonNode` enum of `mod.rs`.  `Number` carries the ℚ abstraction
of `f64`; `String` carries the UTF-8 bytes of the Rust `String`;
`Object` carries the association-list model of
`HashMap<String, JsonNode>`. -/
inductive JsonNode : Type where
  | Number (value : ℚ)
  | String (bytes : List Nat)
  | Array (items : JsonItems)
  | Object (pairs : JsonPairs)
  | Null

/-- `Vec<JsonNode>` as a bespoke list, so that all recursion over the
value tree is structural. -/
inductive JsonItems : Type where
  | nil
  | cons (head : JsonNode) (tail : JsonItems)

/-- The entries of a `HashMap<String, JsonNode>`, keys unique. -/
inductive JsonPairs : Type where
  | nil
  | cons (key : List Nat) (value : JsonNode) (tail : JsonPairs)
end

/-- Convert a parsed `Vec` of elements into `JsonItems`. -/
def toItems : List JsonNode → JsonItems
  | [] => .nil
  | e :: es => .cons e (toItems es)

/-- `HashMap::len`. -/
def hmLen : JsonPairs → Nat
  | .nil => 0
  | .cons _ _ tl => hmLen tl + 1

/-- `HashMap::contains_key`. -/
def hmContains : JsonPairs → List Nat → Bool
  | .nil, _ => false
  | .cons k0 _ tl, k => k0 = k || hmContains tl k

/-- `HashMap::get`. -/
def hmGet : JsonPairs → List Nat → Option JsonNode
  | .nil, _ => none
  | .cons k0 v0 tl, k => if k0 = k then some v0 else hmGet tl k

/-- `HashMap::insert`: replace the value of an existing key, otherwise
add the entry (the position of a fresh entry is immaterial to the map;
this model appends it). -/
def hmInsert : JsonPairs → List Nat → JsonNode → JsonPairs
  | .nil, k, v => .cons k v .nil
  | .cons k0 v0 tl, k, v =>
    if k0 = k then .cons k0 v tl else .cons k0 v0 (hmInsert tl k v)

/-- The duplicate-key loop of `parse_json_object`: pairs are popped from
the *end* of the parsed `Vec` and inserted one by one, so the pair that
appeared first in the source is inserted last and overwrites the
others. -/
def buildObject : List (List Nat × JsonNode) → JsonPairs
  | [] => .nil
  | (k, v) :: rest => hmInsert (buildObject rest) k v

/-! ## The parsers of `parser.rs` -/

/-- `flatten` of `parser.rs`: concatenate the chunks in order. -/
def flatten (deep : List (List Nat)) : List Nat :=
  deep.foldl (fun flat inner => flat ++ inner) []

/-- `parse_json_escaped_ascii`: a maximal run without `\` or `"`, or one
of the eight two-byte escapes.  The `\b` alternative produces the bytes
of the Rust literal `"\08"`, that is NUL then `8`. -/
def parse_json_escaped_ascii : P (List Nat) :=
  altP (isNotP [92, 34])
    (altP (pmap (tagP [92, 92]) fun _ => [92])
      (altP (pmap (tagP [92, 34]) fun _ => [34])
        (altP (pmap (tagP [92, 47]) fun _ => [47])
          (altP (pmap (tagP [92, 98]) fun _ => [0, 56])
            (altP (pmap (tagP [92, 110]) fun _ => [10])
              (altP (pmap (tagP [92, 114]) fun _ => [13])
                (pmap (tagP [92, 116]) fun _ => [9])))))))

/-- `parse_json_unicode_escape`: `\u`, then exactly four bytes mapped
through `codepoint_from_hex`, whose `unwrap`s panic on failure. -/
def parse_json_unicode_escape : P (List Nat) :=
  pbind (tagP [92, 117]) fun _ =>
  pbind (takeP 4) fun hx => fun input =>
    match codepoint_from_hex hx with
    | some bs => .ok input bs
    | none => .panicked

/-- One `Chars` unit of the string production (`Vec::from` of the ascii
slice is the identity on the byte list). -/
def string_chars : P (List Nat) := altP parse_json_escaped_ascii parse_json_unicode_escape

/-- `parse_json_escaped_string`: quote, `many0` of `Chars`, quote, then
`String::from_utf8(flatten(..)).unwrap()` (a panic on invalid UTF-8). -/
def parse_json_escaped_string : P (List Nat) := fun input =>
  match tagP [34] input with
  | .ok i1 _ =>
    match many0F (i1.length + 1) string_chars i1 with
    | .ok i2 parts =>
      match tagP [34] i2 with
      | .ok i3 _ =>
        if validUtf8 (flatten parts) then .ok i3 (flatten parts) else .panicked
      | .incomplete => .incomplete
      | .malformed => .malformed
      | .panicked => .panicked
    | .incomplete => .incomplete
    | .malformed => .malformed
    | .panicked => .panicked
  | .incomplete => .incomplete
  | .malformed => .malformed
  | .panicked => .panicked

/-- `parse_json_null`. -/
def parse_json_null : P JsonNode := pmap (tagP [110, 117, 108, 108]) fun _ => JsonNode.Null

/-- `parse_json_number`. -/
def parse_json_number : P JsonNode := pmap double JsonNode.Number

/-- `parse_json_string` of `parser.rs`. -/
def parse_json_string : P JsonNode := pmap parse_json_escaped_string JsonNode.String

/-- `parse_json_array`, parameterised by the element parser so that the
identical macro body of `main.rs` is shared: `[`, an optional
`separated_list_complete!` of elements, `]`. -/
def parse_json_array (elem : P JsonNode) : P JsonNode := fun input =>
  match tagP [91] input with
  | .ok i1 _ =>
    match optP (separated_list (completeP (tagP [44])) (completeP elem)) i1 with
    | .ok i2 content =>
      match tagP [93] i2 with
      | .ok i3 _ =>
        match content with
        | some elements => .ok i3 (.Array (toItems elements))
        | none => .ok i3 (.Array .nil)
      | .incomplete => .incomplete
      | .malformed => .malformed
      | .panicked => .panicked
    | .incomplete => .incomplete
    | .malformed => .malformed
    | .panicked => .panicked
  | .incomplete => .incomplete
  | .malformed => .malformed
  | .panicked => .panicked

/-- `parse_json_pair`: a string key, `:`, an element. -/
def parse_json_pair (elem : P JsonNode) : P (List Nat × JsonNode) := fun input =>
  match parse_json_escaped_string input with
  | .ok i1 name =>
    match tagP [58] i1 with
    | .ok i2 _ =>
      match elem i2 with
      | .ok i3 value => .ok i3 (name, value)
      | .incomplete => .incomplete
      | .malformed => .malformed
      | .panicked => .panicked
    | .incomplete => .incomplete
    | .malformed => .malformed
    | .panicked => .panicked
  | .incomplete => .incomplete
  | .malformed => .malformed
  | .panicked => .panicked

/-- `parse_json_object`: `{`, an optional `separated_list_complete!` of
pairs, `}`, then the pop-and-insert loop (`buildObject`). -/
def parse_json_object (elem : P JsonNode) : P JsonNode := fun input =>
  match tagP [123] input with
  | .ok i1 _ =>
    match optP (separated_list (completeP (tagP [44])) (completeP (parse_json_pair elem))) i1 with
    | .ok i2 content =>
      match tagP [125] i2 with
      | .ok i3 _ =>
        match content with
        | some elements => .ok i3 (.Object (buildObject elements))
        | none => .ok i3 (.Object .nil)
      | .incomplete => .incomplete
      | .malformed => .malformed
      | .panicked => .panicked
    | .incomplete => .incomplete
    | .malformed => .malformed
    | .panicked => .panicked
  | .incomplete => .incomplete
  | .malformed => .malformed
  | .panicked => .panicked

/-- `parse_json_element` of `parser.rs`:
`null | number | string | array | object`.  The fuel bounds the nesting
recursion only; entering an array or object consumes a byte first, so
the fuel `input.length + 1` supplied by `parse_json` never runs out. -/
def parse_json_element : Nat → P JsonNode
  | 0, _ => .malformed
  | fuel + 1, input =>
    altP parse_json_null
      (altP parse_json_number
        (altP parse_json_string
          (altP (parse_json_array (parse_json_element fuel))
            (parse_json_object (parse_json_element fuel))))) input

/-- `parse_json` of `parser.rs`, the module's entry point. -/
def parse_json (input : List Nat) : POut JsonNode :=
  parse_json_element (input.length + 1) input

/-! ## The duplicated parser of `main.rs` (no object production) -/

/-- `parse_json_escaped_string` of `main.rs`: the `many0` content only,
without the surrounding quotes. -/
def main_parse_json_escaped_string : P (List Nat) := fun input =>
  match many0F (input.length + 1) string_chars input with
  | .ok rest parts => .ok rest (flatten parts)
  | .incomplete => .incomplete
  | .malformed => .malformed
  | .panicked => .panicked

/-- `parse_json_string` of `main.rs`: quote, content, quote, then the
`String::from_utf8(value).unwrap()` (a panic on invalid UTF-8). -/
def main_parse_json_string : P JsonNode := fun input =>
  match tagP [34] input with
  | .ok i1 _ =>
    match main_parse_json_escaped_string i1 with
    | .ok i2 value =>
      match tagP [34] i2 with
      | .ok i3 _ =>
        if validUtf8 value then .ok i3 (.String value) else .panicked
      | .incomplete => .incomplete
      | .malformed => .malformed
      | .panicked => .panicked
    | .incomplete => .incomplete
    | .malformed => .malformed
    | .panicked => .panicked
  | .incomplete => .incomplete
  | .malformed => .malformed
  | .panicked => .panicked

/-- `parse_json_element` of `main.rs`: only
`null | number | string | array` — there is no object alternative. -/
def main_parse_json_element : Nat → P JsonNode
  | 0, _ => .malformed
  | fuel + 1, input =>
    altP parse_json_null
      (altP parse_json_number
        (altP main_parse_json_string
          (parse_json_array (main_parse_json_element fuel)))) input

/-! ## The public constructors -/

/-- `JsonNode::from_bytes` of `mod.rs`: on `Ok` keep only the value
(`rest_and_json.1`, the remainder is discarded); on `Err` the function
panics, modelled by `none`. -/
def from_bytes (buffer : List Nat) : Option JsonNode :=
  match parse_json buffer with
  | .ok _ v => some v
  | _ => none

/-- `JsonNode::from_str` of `mod.rs`: `from_bytes` on the UTF-8 bytes. -/
def from_str (json : List Nat) : Option JsonNode := from_bytes json

/-- `JsonNode::from_bytes` of `main.rs`, which calls its own
`parse_json_element` directly. -/
def main_from_bytes (buffer : List Nat) : Option JsonNode :=
  match main_parse_json_element (buffer.length + 1) buffer with
  | .ok _ v => some v
  | _ => none

/-! ## The `Display` rendering of `mod.rs` -/

/-- Multiplicity of `p` in `n` (fueled; `pfacF n p n` is exact because a
factor of `p ≥ 2` can occur at most `n` times). -/
def pfacF : Nat → Nat → Nat → Nat
  | 0, _, _ => 0
  | fuel + 1, p, n => if 2 ≤ p ∧ n ≠ 0 ∧ n % p = 0 then pfacF fuel p (n / p) + 1 else 0

/-- Multiplicity of the prime `p` in `n`. -/
def pfac (p n : Nat) : Nat := pfacF n p n

/-- `q` has a finite decimal expansion: its reduced denominator consists
of twos and fives only.  Every finite `f64` satisfies this (its value is
`m / 2^e`), so this carves out exactly the number payloads the Rust type
can hold, minus NaN and the infinities. -/
def finDec (q : ℚ) : Bool := q.den = 2 ^ pfac 2 q.den * 5 ^ pfac 5 q.den

/-- Decimal digit bytes of `n`, most significant first (fueled). -/
def natDecDigits : Nat → Nat → List Nat
  | 0, _ => []
  | fuel + 1, n => if n < 10 then [48 + n] else natDecDigits fuel (n / 10) ++ [48 + n % 10]

/-- Decimal digit bytes of `n`. -/
def natDec (n : Nat) : List Nat := natDecDigits (n + 1) n

/-- The number of decimal fraction digits the rendering needs: enough
tens to clear the twos and fives of the denominator. -/
def fmtK (q : ℚ) : Nat := max (pfac 2 q.den) (pfac 5 q.den)

/-- The integer `|q| * 10 ^ fmtK q` whose digits the rendering prints. -/
def fmtN (q : ℚ) : Nat := (q * (10 : ℚ) ^ fmtK q).num.natAbs

/-- The digit string of the rendering: the digits of `fmtN q`, padded
with leading zeros to at least `fmtK q + 1` digits. -/
def fmtDigits (q : ℚ) : List Nat :=
  List.replicate (fmtK q + 1 - (natDec (fmtN q)).length) 48 ++ natDec (fmtN q)

/-- The `Display` rendering of an `f64` in the ℚ abstraction: sign, the
integer digits, and — when the denominator needs them — a point and the
fraction digits of the exact decimal expansion.  (Rust's shortest
round-trip rendering of a double is the exact expansion of the decimal
the model works with; no exponent form is ever produced, as Rust's
`Display` for floats never uses one.) -/
def fmtNumber (q : ℚ) : List Nat :=
  (if q < 0 then [45] else [])
    ++ (fmtDigits q).take ((fmtDigits q).length - fmtK q)
    ++ (if fmtK q = 0 then [] else 46 :: (fmtDigits q).drop ((fmtDigits q).length - fmtK q))

mutual
/-- The `fmt::Display` implementation of `mod.rs`: compact JSON text. -/
def encode : JsonNode → List Nat
  | .Number q => fmtNumber q
  | .String s => 34 :: s ++ [34]
  | .Array a => 91 :: encItems a ++ [93]
  | .Object o => 123 :: encPairs o ++ [125]
  | .Null => [110, 117, 108, 108]

/-- `fmt_array` body: elements comma-joined in order. -/
def encItems : JsonItems → List Nat
  | .nil => []
  | .cons e tl => encode e ++ encItemsSep tl

/-- The later elements of an array, each preceded by a comma. -/
def encItemsSep : JsonItems → List Nat
  | .nil => []
  | .cons e tl => 44 :: encode e ++ encItemsSep tl

/-- `fmt_object` body: pairs rendered `"key":value`, comma-joined in the
map's iteration order. -/
def encPairs : JsonPairs → List Nat
  | .nil => []
  | .cons k v tl => 34 :: k ++ [34] ++ 58 :: encode v ++ encPairsSep tl

/-- The later pairs of an object, each preceded by a comma. -/
def encPairsSep : JsonPairs → List Nat
  | .nil => []
  | .cons k v tl => 44 :: (34 :: k ++ [34] ++ 58 :: encode v) ++ encPairsSep tl
end

/-! ## Equality, well-formedness, nesting depth -/

mutual
/-- The derived `PartialEq` of `JsonNode`: structural, except that two
`Object`s compare as `HashMap`s do — equal size and every entry of the
left found (by key) and equal in the right. -/
def nodeEq : JsonNode → JsonNode → Bool
  | .Number a, .Number b => a == b
  | .String a, .String b => a == b
  | .Array a, .Array b => itemsEq a b
  | .Object a, .Object b => hmLen a == hmLen b && pairsSub a b
  | .Null, .Null => true
  | _, _ => false

/-- `Vec` equality: same length, equal elementwise. -/
def itemsEq : JsonItems → JsonItems → Bool
  | .nil, .nil => true
  | .cons a atl, .cons b btl => nodeEq a b && itemsEq atl btl
  | _, _ => false

/-- Every entry of the first map is present and equal in the second. -/
def pairsSub : JsonPairs → JsonPairs → Bool
  | .nil, _ => true
  | .cons k v tl, other =>
    (match hmGet other k with
     | some w => nodeEq v w
     | none => false) && pairsSub tl other
end

/-- Keys are pairwise distinct — the invariant every `HashMap` holds. -/
def keysDistinct : JsonPairs → Bool
  | .nil => true
  | .cons k _ tl => !hmContains tl k && keysDistinct tl

/-- A byte that is no control character, quote or backslash. -/
def cleanByte (b : Nat) : Bool := 32 ≤ b && b != 34 && b != 92

/-- A string payload within the round-trip restriction of the spec:
valid UTF-8 (as any Rust `String` is) with no control characters,
quotes or backslashes. -/
def cleanStr (s : List Nat) : Bool := s.all cleanByte && validUtf8 s

mutual
/-- The serialize-then-parse restriction on a value tree: clean strings
and keys, number payloads with finite decimal expansions (every `f64`
value qualifies), unique object keys. -/
def good : JsonNode → Bool
  | .Number q => finDec q
  | .String s => cleanStr s
  | .Array a => goodItems a
  | .Object o => keysDistinct o && goodPairs o
  | .Null => true

/-- `good` on every array element. -/
def goodItems : JsonItems → Bool
  | .nil => true
  | .cons e tl => good e && goodItems tl

/-- Clean keys and `good` values on every object entry. -/
def goodPairs : JsonPairs → Bool
  | .nil => true
  | .cons k v tl => cleanStr k && good v && goodPairs tl
end

mutual
/-- Nesting depth of a value: the number of `parse_json_element` fuel
levels needed to parse it back.  Leaves need one. -/
def depth : JsonNode → Nat
  | .Array a => depthItems a + 1
  | .Object o => depthPairs o + 1
  | _ => 1

/-- Maximal depth of the elements. -/
def depthItems : JsonItems → Nat
  | .nil => 0
  | .cons e tl => max (depth e) (depthItems tl)

/-- Maximal depth of the entry values. -/
def depthPairs : JsonPairs → Nat
  | .nil => 0
  | .cons _ v tl => max (depth v) (depthPairs tl)
end

mutual
/-- What parsing the rendering of a value reconstructs: the value
itself, except that every object is rebuilt by the pop-and-insert loop
from its rendered pair list. -/
def reparse : JsonNode → JsonNode
  | .Number q => .Number q
  | .String s => .String s
  | .Array a => .Array (reparseItems a)
  | .Object o => .Object (buildObject (reparsePairsList o))
  | .Null => .Null

/-- `reparse` on every element. -/
def reparseItems : JsonItems → JsonItems
  | .nil => .nil
  | .cons e tl => .cons (reparse e) (reparseItems tl)

/-- The pair `Vec` that parsing the rendering of an object collects. -/
def reparsePairsList : JsonPairs → List (List Nat × JsonNode)
  | .nil => []
  | .cons k v tl => (k, reparse v) :: reparsePairsList tl
end

/-- The parsed element list that parsing a rendered array collects. -/
def reparseItemsList : JsonItems → List JsonNode
  | .nil => []
  | .cons e tl => reparse e :: reparseItemsList tl

/-- A byte that could extend a float literal to its right: a digit, the
point, or an exponent marker. -/
def numExtender (b : Nat) : Bool := isDigitByte b || b == 46 || b == 101 || b == 69

/-- The context restriction the streaming number parser needs: a
rendered number must be followed by a byte that cannot extend the
literal (inside arrays and objects that byte is `,`, `]` or `}`).
Values of any other shape need nothing. -/
def numOk : JsonNode → List Nat → Bool
  | .Number _, [] => false
  | .Number _, b :: _ => !numExtender b
  | _, _ => true

/-- Number of elements (for fuel accounting of the list loop). -/
def itemsCount : JsonItems → Nat
  | .nil => 0
  | .cons _ tl => itemsCount tl + 1

/-- Number of entries (for fuel accounting of the pair loop). -/
def pairsCount : JsonPairs → Nat
  | .nil => 0
  | .cons _ _ tl => pairsCount tl + 1

/-- A byte that can begin a float literal: digit, sign, or point. -/
def numStartByte (b : Nat) : Bool := isDigitByte b || b == 43 || b == 45 || b == 46

/-! # Theorems -/

set_option maxRecDepth 100000

/-! ## The duplicate-key policy (claim C2) -/

/-- Induction over `JsonItems` alone (the mutual family's generated
eliminator has several motives, so `induction` needs this one). -/
theorem JsonItems.indOnItems {motive : JsonItems → Prop} (base : motive .nil)
    (step : ∀ hd tl, motive tl → motive (.cons hd tl)) : ∀ items, motive items
  | .nil => base
  | .cons hd tl => step hd tl (JsonItems.indOnItems base step tl)

/-- Induction over `JsonPairs` alone. -/
theorem JsonPairs.indOnPairs {motive : JsonPairs → Prop} (base : motive .nil)
    (step : ∀ k v tl, motive tl → motive (.cons k v tl)) : ∀ pairs, motive pairs
  | .nil => base
  | .cons k v tl => step k v tl (JsonPairs.indOnPairs base step tl)

theorem hmGet_hmInsert (m : JsonPairs) (k : List Nat) (v : JsonNode) (kq : List Nat) :
    hmGet (hmInsert m k v) kq = if k = kq then some v else hmGet m kq := by
  induction m using JsonPairs.indOnPairs with
  | base =>
    simp only [hmInsert, hmGet]
  | step k0 v0 tl ih =>
    simp only [hmInsert]
    by_cases h1 : k0 = k
    · subst h1
      by_cases h2 : k0 = kq
      · subst h2
        simp [hmGet]
      · simp [hmGet, h2]
    · simp only [if_neg h1, hmGet, ih]
      by_cases h2 : k0 = kq
      · subst h2
        have h3 : ¬k = k0 := fun h => h1 h.symm
        simp [h3]
      · simp [h2]

theorem buildObject_first (ps : List (List Nat × JsonNode)) (key : List Nat) :
    hmGet (buildObject ps) key = (ps.find? (fun p => p.1 == key)).map Prod.snd := by
  induction ps with
  | nil => rfl
  | cons p tl ih =>
    obtain ⟨k, v⟩ := p
    simp only [buildObject, hmGet_hmInsert, List.find?]
    by_cases h : k = key
    · subst h
      simp
    · simp only [if_neg h, ih]
      have : (k == key) = false := by simpa using h
      rw [this]

/-- C2: parsing an object with a duplicated key keeps the value of the
key's first occurrence in source order: the pop-and-insert loop of
`parse_json_object` makes the lookup of any key in the built map return
the first pair with that key in the parsed `Vec`, and on the concrete
source `{"a":1,"a":2}` the decoded object maps `"a"` (byte 97) to the
number `1` of the first occurrence, the later duplicate being parsed
but discarded. -/
theorem C2_first_occurrence_wins :
    (∀ (ps : List (List Nat × JsonNode)) (key : List Nat),
        hmGet (buildObject ps) key = (ps.find? (fun p => p.1 == key)).map Prod.snd)
    ∧ parse_json [123, 34, 97, 34, 58, 49, 44, 34, 97, 34, 58, 50, 125]
        = .ok [] (.Object (.cons [97] (.Number 1) .nil))
    ∧ hmGet (.cons [97] (.Number 1) .nil) [97] = some (.Number 1) :=
  ⟨buildObject_first, by with_unfolding_all rfl, by with_unfolding_all rfl⟩

/-! ## Panics on bad unicode escapes (claims C3 and C4) -/

/-- C3: on a `\u` escape followed by four bytes that are not all hex
digits the decoder does **not** return a structured `Malformed` error:
`codepoint_from_hex` unwraps the failed `u32::from_str_radix`, so the
process panics.  On the input `"\uzzzz"` the model's outcome is
`panicked`, which is distinct from `malformed`. -/
theorem C3_invalid_hex_panics :
    parse_json [34, 92, 117, 122, 122, 122, 122, 34] = .panicked
    ∧ (POut.panicked : POut JsonNode) ≠ .malformed :=
  ⟨by with_unfolding_all rfl, fun h => POut.noConfusion h⟩

/-- C4 counterexample: on the lone high surrogate escape `"\uD800"` the
decoder does not succeed with an isolated code point — it panics
(`char::from_u32(0xD800)` is `None` and is unwrapped), so `from_bytes`
never returns a value. -/
theorem C4_counterexample :
    parse_json [34, 92, 117, 68, 56, 48, 48, 34] = .panicked
    ∧ from_bytes [34, 92, 117, 68, 56, 48, 48, 34] = none :=
  ⟨by with_unfolding_all rfl, by with_unfolding_all rfl⟩

/-- C4 as amended: there is indeed no surrogate-pair combining — a
`\uXXXX` escape is decoded in isolation, and for a non-surrogate value
(here `"ℝ"`) the code point is re-encoded as UTF-8 in place — but
four hex digits denoting a lone high or low surrogate (here `"\uD800"`)
make the decoder panic on `char::from_u32(..).unwrap()` instead of
producing a String. -/
theorem C4_lone_surrogate_panics :
    parse_json [34, 92, 117, 50, 49, 49, 68, 34] = .ok [] (.String [226, 132, 157])
    ∧ parse_json [34, 92, 117, 68, 56, 48, 48, 34] = .panicked :=
  ⟨by with_unfolding_all rfl, by with_unfolding_all rfl⟩

/-! ## The `\b` escape (claim C5) -/

/-- C5: decoding `"\b"` succeeds and replaces the escape by the two
bytes of the Rust literal `"\08"` — NUL (0) and the digit `8` (56) —
a two-character string, not the single backspace byte 8. -/
theorem C5_backslash_b_two_chars :
    parse_json [34, 92, 98, 34] = .ok [] (.String [0, 56])
    ∧ ([0, 56] : List Nat).length = 2
    ∧ ([0, 56] : List Nat) ≠ [8] :=
  ⟨by with_unfolding_all rfl, rfl, by simp⟩

/-! ## The three atomic decodes and the two entry points (claim C6) -/

/-- C6 counterexample: the entry-point parser of `main.rs` has no
object alternative (`null | number | string | array` only), so on the
input `{}` it fails with `Malformed` instead of yielding an
empty-mapping object. -/
theorem C6_counterexample :
    main_parse_json_element 3 [123, 125] = .malformed
    ∧ main_from_bytes [123, 125] = none :=
  ⟨by with_unfolding_all rfl, by with_unfolding_all rfl⟩

/-- C6 as amended: for the `parser.rs` entry point, `null` decodes to
`Null`, `[]` to an empty array and `{}` to an empty-mapping object;
the `main.rs` entry point decodes `null` and `[]` the same way but has
no Object alternative, so `{}` is `Malformed` there. -/
theorem C6_atomic_decodes :
    parse_json [110, 117, 108, 108] = .ok [] .Null
    ∧ parse_json [91, 93] = .ok [] (.Array .nil)
    ∧ parse_json [123, 125] = .ok [] (.Object .nil)
    ∧ main_parse_json_element 5 [110, 117, 108, 108] = .ok [] .Null
    ∧ main_parse_json_element 3 [91, 93] = .ok [] (.Array .nil)
    ∧ main_parse_json_element 3 [123, 125] = .malformed :=
  ⟨by with_unfolding_all rfl, by with_unfolding_all rfl, by with_unfolding_all rfl,
   by with_unfolding_all rfl, by with_unfolding_all rfl, by with_unfolding_all rfl⟩

/-! ## Empty input (claim C7) -/

/-- C7: on the empty byte slice the very first alternative
(`tag_s!("null")`) reports `Incomplete`, which `alt!` propagates, so
`decode` returns the `Incomplete` outcome and never `Malformed`. -/
theorem C7_empty_incomplete :
    parse_json [] = .incomplete ∧ parse_json [] ≠ .malformed :=
  ⟨by with_unfolding_all rfl,
   fun h => POut.noConfusion ((by with_unfolding_all rfl : parse_json [] = .incomplete).symm.trans h)⟩

/-! ## Comma placement in arrays (claim C8) -/

/-- C8: each of `[,]`, `[[],]` and `[,[]]` makes `decode` fail with a
`Malformed` error — the element list parser stops at the comma that
does not separate two elements, and the closing-bracket tag then
mismatches the leftover comma, so no partial array is produced. -/
theorem C8_bad_commas_malformed :
    parse_json [91, 44, 93] = .malformed
    ∧ parse_json [91, 91, 93, 44, 93] = .malformed
    ∧ parse_json [91, 44, 91, 93, 93] = .malformed :=
  ⟨by with_unfolding_all rfl, by with_unfolding_all rfl, by with_unfolding_all rfl⟩

/-! ## Numeric permissiveness (claim C9) -/

/-- C9 counterexample: on exactly the input `+0` the decoder does not
yield `Number 0.0`: the streaming number parser cannot rule out further
digits, so the result is `Incomplete` and `from_bytes` panics. -/
theorem C9_counterexample :
    parse_json [43, 48] = .incomplete ∧ from_bytes [43, 48] = none :=
  ⟨by with_unfolding_all rfl, by with_unfolding_all rfl⟩

/-- C9 as amended: the number production is permissive beyond RFC 8259
— a leading `+`, a leading `-`, leading zeros and a bare leading `.`
are all accepted — but a number at the very end of the input is
`Incomplete`, so each literal is followed here by a space (exactly as
the repository's own tests do): `+0 `, `-0 ` and `.0 ` decode to the
number 0, `00012345 ` to 12345, and `5.67e-89 ` to the exact rational
`567 / 10 ^ 91`. -/
theorem C9_permissive_numbers :
    parse_json [43, 48, 32] = .ok [32] (.Number 0)
    ∧ parse_json [45, 48, 32] = .ok [32] (.Number 0)
    ∧ parse_json [46, 48, 32] = .ok [32] (.Number 0)
    ∧ parse_json [48, 48, 48, 49, 50, 51, 52, 53, 32] = .ok [32] (.Number 12345)
    ∧ parse_json [53, 46, 54, 55, 101, 45, 56, 57, 32] = .ok [32] (.Number (567 / 10 ^ 91)) :=
  ⟨by with_unfolding_all rfl, by with_unfolding_all rfl, by with_unfolding_all rfl,
   by with_unfolding_all rfl, by with_unfolding_all rfl⟩

/-! ## The public constructors (claim C10) -/

/-- C10: whenever the underlying parser fails — `Incomplete` or
`Malformed` — the public constructors `JsonNode::from_bytes` and
`JsonNode::from_str` panic (modelled by `none`) instead of returning an
error value; and on success they return only the decoded value,
discarding the unconsumed remainder, so no `Result`-shaped outcome is
available at this interface. -/
theorem C10_constructors_panic (input : List Nat) :
    ((parse_json input = .incomplete ∨ parse_json input = .malformed) →
      from_bytes input = none ∧ from_str input = none)
    ∧ (∀ (rest : List Nat) (v : JsonNode), parse_json input = .ok rest v →
      from_bytes input = some v ∧ from_str input = some v) := by
  constructor
  · intro h
    rcases h with h | h <;> simp [from_bytes, from_str, h]
  · intro rest v h
    simp [from_bytes, from_str, h]

/-- Witness for C10: the malformed input `[,]` makes `from_bytes` panic,
and on `null!` the constructor returns `Null` with the unconsumed `!`
discarded. -/
theorem C10_witness :
    from_bytes [91, 44, 93] = none ∧ from_bytes [110, 117, 108, 108, 33] = some .Null :=
  ⟨((C10_constructors_panic [91, 44, 93]).1 (Or.inr (by with_unfolding_all rfl))).1,
   ((C10_constructors_panic [110, 117, 108, 108, 33]).2 [33] .Null (by with_unfolding_all rfl)).1⟩

/-! ## Evaluation lemmas for the combinators -/

theorem takeWhile_all {p : Nat → Bool} : ∀ {xs : List Nat},
    (∀ b ∈ xs, p b = true) → xs.takeWhile p = xs
  | [], _ => rfl
  | x :: xs, h => by
    have hx : p x = true := h x (by simp)
    simp only [List.takeWhile_cons, hx, if_true]
    rw [takeWhile_all fun b hb => h b (by simp [hb])]

theorem takeWhile_run {p : Nat → Bool} : ∀ {xs : List Nat} {y : Nat} {rest : List Nat},
    (∀ b ∈ xs, p b = true) → p y = false →
    (xs ++ y :: rest).takeWhile p = xs
  | [], y, rest, _, hy => by simp [List.takeWhile_cons, hy]
  | x :: xs, y, rest, h, hy => by
    have hx : p x = true := h x (by simp)
    simp only [List.cons_append, List.takeWhile_cons, hx, if_true]
    rw [takeWhile_run fun b hb => h b (by simp [hb])]
    exact hy

theorem zip_self_append_all : ∀ (t rest : List Nat),
    ((t ++ rest).zip t).all (fun p => p.1 == p.2) = true
  | [], rest => by simp
  | c :: t, rest => by
    simp only [List.cons_append, List.zip_cons_cons, List.all_cons, beq_self_eq_true,
      Bool.true_and]
    exact zip_self_append_all t rest

theorem tagP_self (t rest : List Nat) : tagP t (t ++ rest) = .ok rest () := by
  simp only [tagP, zip_self_append_all, if_true]
  rw [if_pos (by simp), List.drop_left]

theorem tagP_head_ne {c b : Nat} (ts rest : List Nat) (h : b ≠ c) :
    tagP (c :: ts) (b :: rest) = .malformed := by
  simp [tagP, h]

theorem tagP_snd_ne {c1 c2 b : Nat} (rest : List Nat) (h : b ≠ c2) :
    tagP [c1, c2] (c1 :: b :: rest) = .malformed := by
  simp [tagP, h]

theorem charP_eq (c : Nat) (rest : List Nat) : charP c (c :: rest) = .ok rest () := by
  simp [charP]

theorem charP_ne {c b : Nat} (rest : List Nat) (h : b ≠ c) :
    charP c (b :: rest) = .malformed := by
  simp [charP, h]

theorem altP_ok {α : Type} {p q : P α} {input rest : List Nat} {a : α}
    (h : p input = .ok rest a) : altP p q input = .ok rest a := by
  simp [altP, h]

theorem altP_mal {α : Type} {p q : P α} {input : List Nat}
    (h : p input = .malformed) : altP p q input = q input := by
  simp [altP, h]

theorem pmap_mal {α β : Type} {p : P α} {f : α → β} {input : List Nat}
    (h : p input = .malformed) : pmap p f input = .malformed := by
  simp [pmap, h]

theorem pmap_ok {α β : Type} {p : P α} {f : α → β} {input rest : List Nat} {a : α}
    (h : p input = .ok rest a) : pmap p f input = .ok rest (f a) := by
  simp [pmap, h]

theorem pbind_mal {α β : Type} {p : P α} {f : α → P β} {input : List Nat}
    (h : p input = .malformed) : pbind p f input = .malformed := by
  simp [pbind, h]

theorem pbind_ok {α β : Type} {p : P α} {f : α → P β} {input rest : List Nat} {a : α}
    (h : p input = .ok rest a) : pbind p f input = f a rest := by
  simp [pbind, h]

theorem optP_mal {α : Type} {p : P α} {input : List Nat}
    (h : p input = .malformed) : optP p input = .ok input none := by
  simp [optP, h]

theorem optP_ok {α : Type} {p : P α} {input rest : List Nat} {a : α}
    (h : p input = .ok rest a) : optP p input = .ok rest (some a) := by
  simp [optP, h]

theorem isNotP_run {bad : List Nat} {xs : List Nat} {y : Nat} {rest : List Nat}
    (hne : xs ≠ []) (hxs : ∀ b ∈ xs, bad.contains b = false) (hy : bad.contains y = true) :
    isNotP bad (xs ++ y :: rest) = .ok (y :: rest) xs := by
  have hrun : (xs ++ y :: rest).takeWhile (fun b => !bad.contains b) = xs :=
    takeWhile_run (fun b hb => by rw [show bad.contains b = false from hxs b hb]; rfl)
      (by rw [hy]; rfl)
  have hlen : xs.length ≠ (xs ++ y :: rest).length := by simp
  have hpos : xs.length ≠ 0 := by simpa using hne
  simp only [isNotP]
  rw [hrun, if_neg hlen, if_neg hpos, List.drop_left]

theorem isNotP_head {bad : List Nat} {b : Nat} (rest : List Nat)
    (hb : bad.contains b = true) : isNotP bad (b :: rest) = .malformed := by
  have hrun : (b :: rest).takeWhile (fun x => !bad.contains x) = [] := by
    rw [List.takeWhile_cons, hb]
    rfl
  simp only [isNotP]
  rw [hrun]
  simp

theorem digitP_run {ds : List Nat} {y : Nat} {rest : List Nat}
    (hne : ds ≠ []) (hds : ∀ b ∈ ds, isDigitByte b = true) (hy : isDigitByte y = false) :
    digitP (ds ++ y :: rest) = .ok (y :: rest) ds := by
  have hrun : (ds ++ y :: rest).takeWhile isDigitByte = ds := takeWhile_run hds hy
  have hlen : ds.length ≠ (ds ++ y :: rest).length := by simp
  have hpos : ds.length ≠ 0 := by simpa using hne
  simp only [digitP]
  rw [hrun, if_neg hlen, if_neg hpos, List.drop_left]

theorem digitP_head {b : Nat} (rest : List Nat) (hb : isDigitByte b = false) :
    digitP (b :: rest) = .malformed := by
  have hrun : (b :: rest).takeWhile isDigitByte = [] := by
    rw [List.takeWhile_cons, hb]
    simp
  simp only [digitP]
  rw [hrun]
  simp

/-! ## The string production on clean content -/

theorem parse_json_escaped_ascii_quote (rest : List Nat) :
    parse_json_escaped_ascii (34 :: rest) = .malformed := by
  simp only [parse_json_escaped_ascii]
  rw [altP_mal (isNotP_head rest (by decide))]
  rw [altP_mal (pmap_mal (tagP_head_ne [92] rest (by decide)))]
  rw [altP_mal (pmap_mal (tagP_head_ne [34] rest (by decide)))]
  rw [altP_mal (pmap_mal (tagP_head_ne [47] rest (by decide)))]
  rw [altP_mal (pmap_mal (tagP_head_ne [98] rest (by decide)))]
  rw [altP_mal (pmap_mal (tagP_head_ne [110] rest (by decide)))]
  rw [altP_mal (pmap_mal (tagP_head_ne [114] rest (by decide)))]
  exact pmap_mal (tagP_head_ne [116] rest (by decide))

theorem string_chars_quote (rest : List Nat) :
    string_chars (34 :: rest) = .malformed := by
  simp only [string_chars]
  rw [altP_mal (parse_json_escaped_ascii_quote rest)]
  exact pbind_mal (tagP_head_ne [117] rest (by decide))

theorem cleanByte_not_delim {x : Nat} (hx : cleanByte x = true) :
    (([92, 34] : List Nat).contains x) = false := by
  simp only [cleanByte, Bool.and_eq_true, bne_iff_ne, decide_eq_true_eq] at hx
  obtain ⟨⟨-, h34⟩, h92⟩ := hx
  simp [h34, h92]

theorem many0_string_content {s : List Nat} (rest : List Nat) {fuel : Nat}
    (hs : ∀ b ∈ s, cleanByte b = true) (hf : 2 ≤ fuel) :
    many0F fuel string_chars (s ++ 34 :: rest)
      = .ok (34 :: rest) (if s.isEmpty then [] else [s]) := by
  obtain ⟨f, rfl⟩ : ∃ f, fuel = f + 2 := ⟨fuel - 2, by omega⟩
  cases s with
  | nil =>
    simp [many0F, string_chars_quote]
  | cons b bs =>
    have hchar : string_chars ((b :: bs) ++ 34 :: rest) = .ok (34 :: rest) (b :: bs) := by
      simp only [string_chars]
      exact altP_ok (by
        simp only [parse_json_escaped_ascii]
        exact altP_ok (isNotP_run (by simp)
          (fun x hx => cleanByte_not_delim (hs x hx)) (by decide)))
    simp only [many0F, hchar]
    rw [if_pos (by simp only [List.length_cons, List.length_append]; omega)]
    simp [many0F, string_chars_quote]

theorem flatten_single (s : List Nat) : flatten [s] = s := by
  simp [flatten]

theorem parse_json_escaped_string_rt {s : List Nat} (rest : List Nat)
    (hs : cleanStr s = true) :
    parse_json_escaped_string (34 :: (s ++ 34 :: rest)) = .ok rest s := by
  have hclean : ∀ b ∈ s, cleanByte b = true := by
    have h := hs
    simp only [cleanStr, Bool.and_eq_true, List.all_eq_true] at h
    exact h.1
  have hutf : validUtf8 s = true := by
    have h := hs
    simp only [cleanStr, Bool.and_eq_true] at h
    exact h.2
  have htag : tagP [34] (34 :: (s ++ 34 :: rest)) = .ok (s ++ 34 :: rest) () :=
    tagP_self [34] (s ++ 34 :: rest)
  simp only [parse_json_escaped_string, htag]
  rw [many0_string_content rest hclean
    (by simp only [List.length_append, List.length_cons]; omega)]
  have htag2 : tagP [34] (34 :: rest) = .ok rest () := tagP_self [34] rest
  cases s with
  | nil =>
    simp only [List.isEmpty_nil, if_true, htag2]
    simp [flatten, hutf]
  | cons b bs =>
    simp only [List.isEmpty_cons, Bool.false_eq_true, if_false, htag2]
    rw [flatten_single]
    simp [hutf]

/-! ## Decimal digit runs and their values -/

theorem natOfDigits_from : ∀ (b : List Nat) (init : Nat),
    b.foldl (fun acc d => acc * 10 + (d - 48)) init = init * 10 ^ b.length + natOfDigits b
  | [], init => by simp [natOfDigits]
  | d :: t, init => by
    have h1 := natOfDigits_from t (init * 10 + (d - 48))
    have h2 := natOfDigits_from t (0 * 10 + (d - 48))
    simp only [natOfDigits, List.foldl_cons, List.length_cons] at h1 h2 ⊢
    rw [h1, h2]
    ring

theorem natOfDigits_append (a b : List Nat) :
    natOfDigits (a ++ b) = natOfDigits a * 10 ^ b.length + natOfDigits b := by
  simp only [natOfDigits, List.foldl_append]
  exact natOfDigits_from b _

theorem natOfDigits_replicate (z : Nat) : natOfDigits (List.replicate z 48) = 0 := by
  induction z with
  | zero => rfl
  | succ n ih =>
    simp only [List.replicate_succ, natOfDigits, List.foldl_cons]
    have h := natOfDigits_from (List.replicate n 48) (0 * 10 + (48 - 48))
    simp only [natOfDigits] at h ih
    rw [h, ih]
    simp

theorem natDecDigits_spec : ∀ (fuel n : Nat), n < fuel →
    natDecDigits fuel n ≠ []
    ∧ (∀ b ∈ natDecDigits fuel n, isDigitByte b = true)
    ∧ natOfDigits (natDecDigits fuel n) = n := by
  intro fuel
  induction fuel with
  | zero => intro n h; omega
  | succ f ih =>
    intro n h
    by_cases h10 : n < 10
    · refine ⟨by simp [natDecDigits, h10], ?_, ?_⟩
      · intro b hb
        simp only [natDecDigits, if_pos h10, List.mem_singleton] at hb
        subst hb
        simp only [isDigitByte, Bool.and_eq_true, decide_eq_true_eq]
        omega
      · simp only [natDecDigits, if_pos h10, natOfDigits, List.foldl_cons, List.foldl_nil]
        omega
    · have hdiv : n / 10 < n := Nat.div_lt_self (by omega) (by omega)
      have hlt : n / 10 < f := by omega
      obtain ⟨hne, hdig, hval⟩ := ih (n / 10) hlt
      refine ⟨?_, ?_, ?_⟩
      · simp [natDecDigits, h10]
      · intro b hb
        simp only [natDecDigits, if_neg h10, List.mem_append, List.mem_singleton] at hb
        rcases hb with hb | hb
        · exact hdig b hb
        · subst hb
          have hm : n % 10 < 10 := Nat.mod_lt _ (by omega)
          simp only [isDigitByte, Bool.and_eq_true, decide_eq_true_eq]
          omega
      · simp only [natDecDigits, if_neg h10]
        rw [natOfDigits_append, hval]
        have hone : natOfDigits [48 + n % 10] = n % 10 := by
          simp only [natOfDigits, List.foldl_cons, List.foldl_nil]
          omega
        rw [hone]
        have := Nat.div_add_mod n 10
        simp only [List.length_cons, List.length_nil, pow_one]
        omega

theorem natDec_spec (n : Nat) :
    natDec n ≠ [] ∧ (∀ b ∈ natDec n, isDigitByte b = true) ∧ natOfDigits (natDec n) = n :=
  natDecDigits_spec (n + 1) n (by omega)

/-! ## Evaluating the float recogniser on rendered numbers -/

theorem numExtender_parts {y : Nat} (hy : numExtender y = false) :
    isDigitByte y = false ∧ y ≠ 46 ∧ y ≠ 101 ∧ y ≠ 69 := by
  simp only [numExtender, Bool.or_eq_false_iff, beq_eq_false_iff_ne, ne_eq] at hy
  exact ⟨hy.1.1.1, hy.1.1.2, hy.1.2, hy.2⟩

theorem isDigitByte_ne {d c : Nat} (hd : isDigitByte d = true)
    (hc : c < 48 ∨ 57 < c) : d ≠ c := by
  simp only [isDigitByte, Bool.and_eq_true, decide_eq_true_eq] at hd
  omega

theorem signAlt_digit {d : Nat} (rest : List Nat) (hd : isDigitByte d = true) :
    optP signAlt (d :: rest) = .ok (d :: rest) none := by
  apply optP_mal
  simp only [signAlt]
  rw [altP_mal (charP_ne rest (isDigitByte_ne hd (by omega)))]
  exact charP_ne rest (isDigitByte_ne hd (by omega))

theorem signAlt_neg (rest : List Nat) :
    optP signAlt (45 :: rest) = .ok rest (some ()) := by
  apply optP_ok
  simp only [signAlt]
  rw [altP_mal (charP_ne rest (by decide))]
  exact charP_eq 45 rest

theorem fracPart_stop {y : Nat} (rest : List Nat) (hy : y ≠ 46) :
    fracPart (y :: rest) = .ok (y :: rest) none :=
  optP_mal (pbind_mal (charP_ne rest hy))

theorem fracPart_go {fs : List Nat} {y : Nat} (rest : List Nat)
    (hne : fs ≠ []) (hfs : ∀ b ∈ fs, isDigitByte b = true) (hy : isDigitByte y = false) :
    fracPart (46 :: (fs ++ y :: rest)) = .ok (y :: rest) (some ()) := by
  apply optP_ok
  rw [pbind_ok (charP_eq 46 (fs ++ y :: rest))]
  exact pmap_ok (optP_ok (digitP_run hne hfs hy))

theorem expPart_stop {y : Nat} (rest : List Nat) (h101 : y ≠ 101) (h69 : y ≠ 69) :
    expPart (y :: rest) = .ok (y :: rest) none := by
  apply optP_mal
  apply pbind_mal
  rw [altP_mal (charP_ne rest h101)]
  exact charP_ne rest h69

theorem mantissaA_digits {ds : List Nat} {y : Nat} (rest : List Nat)
    (hne : ds ≠ []) (hds : ∀ b ∈ ds, isDigitByte b = true)
    (hyd : isDigitByte y = false) (hy46 : y ≠ 46) :
    mantissaA (ds ++ y :: rest) = .ok (y :: rest) () := by
  simp only [mantissaA]
  rw [pbind_ok (digitP_run hne hds hyd)]
  exact pmap_ok (fracPart_stop rest hy46)

theorem mantissaA_frac {ds fs : List Nat} {y : Nat} (rest : List Nat)
    (hnds : ds ≠ []) (hds : ∀ b ∈ ds, isDigitByte b = true)
    (hnfs : fs ≠ []) (hfs : ∀ b ∈ fs, isDigitByte b = true)
    (hyd : isDigitByte y = false) :
    mantissaA (ds ++ 46 :: (fs ++ y :: rest)) = .ok (y :: rest) () := by
  simp only [mantissaA]
  rw [pbind_ok (digitP_run hnds hds (by decide))]
  exact pmap_ok (fracPart_go rest hnfs hfs hyd)

theorem floatBody_digits {ds : List Nat} {y : Nat} (rest : List Nat)
    (hne : ds ≠ []) (hds : ∀ b ∈ ds, isDigitByte b = true) (hy : numExtender y = false) :
    floatBody (ds ++ y :: rest) = .ok (y :: rest) () := by
  obtain ⟨hyd, hy46, hy101, hy69⟩ := numExtender_parts hy
  obtain ⟨d, ds', rfl⟩ : ∃ d t, ds = d :: t := by
    cases ds with
    | nil => exact absurd rfl hne
    | cons d t => exact ⟨d, t, rfl⟩
  have hd : isDigitByte d = true := hds d (by simp)
  simp only [floatBody]
  rw [List.cons_append, pbind_ok (signAlt_digit (ds' ++ y :: rest) hd), ← List.cons_append]
  rw [pbind_ok (altP_ok (mantissaA_digits rest hne hds hyd hy46))]
  exact pmap_ok (expPart_stop rest hy101 hy69)

theorem floatBody_digits_neg {ds : List Nat} {y : Nat} (rest : List Nat)
    (hne : ds ≠ []) (hds : ∀ b ∈ ds, isDigitByte b = true) (hy : numExtender y = false) :
    floatBody (45 :: (ds ++ y :: rest)) = .ok (y :: rest) () := by
  obtain ⟨hyd, hy46, hy101, hy69⟩ := numExtender_parts hy
  simp only [floatBody]
  rw [pbind_ok (signAlt_neg (ds ++ y :: rest))]
  rw [pbind_ok (altP_ok (mantissaA_digits rest hne hds hyd hy46))]
  exact pmap_ok (expPart_stop rest hy101 hy69)

theorem floatBody_frac {ds fs : List Nat} {y : Nat} (rest : List Nat)
    (hnds : ds ≠ []) (hds : ∀ b ∈ ds, isDigitByte b = true)
    (hnfs : fs ≠ []) (hfs : ∀ b ∈ fs, isDigitByte b = true) (hy : numExtender y = false) :
    floatBody (ds ++ 46 :: (fs ++ y :: rest)) = .ok (y :: rest) () := by
  obtain ⟨hyd, _, hy101, hy69⟩ := numExtender_parts hy
  obtain ⟨d, ds', rfl⟩ : ∃ d t, ds = d :: t := by
    cases ds with
    | nil => exact absurd rfl hnds
    | cons d t => exact ⟨d, t, rfl⟩
  have hd : isDigitByte d = true := hds d (by simp)
  simp only [floatBody]
  rw [List.cons_append, pbind_ok (signAlt_digit (ds' ++ 46 :: (fs ++ y :: rest)) hd),
    ← List.cons_append]
  rw [pbind_ok (altP_ok (mantissaA_frac rest hnds hds hnfs hfs hyd))]
  exact pmap_ok (expPart_stop rest hy101 hy69)

theorem floatBody_frac_neg {ds fs : List Nat} {y : Nat} (rest : List Nat)
    (hnds : ds ≠ []) (hds : ∀ b ∈ ds, isDigitByte b = true)
    (hnfs : fs ≠ []) (hfs : ∀ b ∈ fs, isDigitByte b = true) (hy : numExtender y = false) :
    floatBody (45 :: (ds ++ 46 :: (fs ++ y :: rest))) = .ok (y :: rest) () := by
  obtain ⟨hyd, _, hy101, hy69⟩ := numExtender_parts hy
  simp only [floatBody]
  rw [pbind_ok (signAlt_neg (ds ++ 46 :: (fs ++ y :: rest)))]
  rw [pbind_ok (altP_ok (mantissaA_frac rest hnds hds hnfs hfs hyd))]
  exact pmap_ok (expPart_stop rest hy101 hy69)

theorem recognizeP_pre {α : Type} {p : P α} {pre suf : List Nat} {a : α}
    (h : p (pre ++ suf) = .ok suf a) : recognizeP p (pre ++ suf) = .ok suf pre := by
  simp only [recognizeP, h]
  have hl : (pre ++ suf).length - suf.length = pre.length := by simp
  rw [hl, List.take_left]

theorem double_pre {pre suf : List Nat}
    (h : recognize_float (pre ++ suf) = .ok suf pre) :
    double (pre ++ suf) = .ok suf (ratOfLit pre) := by
  simp only [double]
  rw [pbind_ok h]
  rfl

/-! ## Evaluating the literal value on rendered numbers -/

theorem ratOfLitExp_none (intDs fracDs : List Nat) :
    ratOfLitExp intDs fracDs []
      = (natOfDigits intDs : ℚ) + (natOfDigits fracDs : ℚ) / 10 ^ fracDs.length := by
  simp [ratOfLitExp]

theorem ratOfLitAbs_digits {ds : List Nat} (hds : ∀ b ∈ ds, isDigitByte b = true) :
    ratOfLitAbs ds = (natOfDigits ds : ℚ) := by
  simp only [ratOfLitAbs, takeWhile_all hds, List.drop_length]
  simp only [ratOfLitFrac]
  rw [if_neg (by simp)]
  rw [ratOfLitExp_none]
  simp [natOfDigits]

theorem ratOfLitAbs_frac {ds fs : List Nat}
    (hds : ∀ b ∈ ds, isDigitByte b = true) (hfs : ∀ b ∈ fs, isDigitByte b = true) :
    ratOfLitAbs (ds ++ 46 :: fs)
      = (natOfDigits ds : ℚ) + (natOfDigits fs : ℚ) / 10 ^ fs.length := by
  have ht : (ds ++ 46 :: fs).takeWhile isDigitByte = ds := takeWhile_run hds (by decide)
  simp only [ratOfLitAbs, ht, List.drop_left]
  simp only [ratOfLitFrac, List.head?_cons]
  rw [if_pos trivial]
  simp only [List.tail_cons, takeWhile_all hfs, List.drop_length]
  exact ratOfLitExp_none ds fs

theorem ratOfLit_head_digit {s : List Nat} {d : Nat}
    (hs : s.head? = some d) (hd : isDigitByte d = true) : ratOfLit s = ratOfLitAbs s := by
  have h45 : d ≠ 45 := isDigitByte_ne hd (by omega)
  have h43 : d ≠ 43 := isDigitByte_ne hd (by omega)
  simp only [ratOfLit, hs]
  rw [if_neg (by simp [h45]), if_neg (by simp [h43])]

theorem ratOfLit_neg (t : List Nat) : ratOfLit (45 :: t) = -ratOfLitAbs t := by
  simp [ratOfLit]

/-! ## The shape of a rendered number -/

theorem fmtDigits_len (q : ℚ) : fmtK q + 1 ≤ (fmtDigits q).length := by
  have h1 := (natDec_spec (fmtN q)).1
  have hlen : 1 ≤ (natDec (fmtN q)).length := by
    cases h : natDec (fmtN q) with
    | nil => exact absurd h h1
    | cons a t => simp
  simp only [fmtDigits, List.length_append, List.length_replicate]
  omega

theorem fmtDigits_digits (q : ℚ) : ∀ b ∈ fmtDigits q, isDigitByte b = true := by
  intro b hb
  simp only [fmtDigits, List.mem_append, List.mem_replicate] at hb
  rcases hb with ⟨-, rfl⟩ | hb
  · decide
  · exact (natDec_spec (fmtN q)).2.1 b hb

theorem fmtDigits_val (q : ℚ) : natOfDigits (fmtDigits q) = fmtN q := by
  simp only [fmtDigits]
  rw [natOfDigits_append, natOfDigits_replicate, (natDec_spec (fmtN q)).2.2]
  simp

theorem fmtInt_len (q : ℚ) :
    ((fmtDigits q).take ((fmtDigits q).length - fmtK q)).length
      = (fmtDigits q).length - fmtK q := by
  rw [List.length_take]
  omega

theorem fmtInt_ne (q : ℚ) : (fmtDigits q).take ((fmtDigits q).length - fmtK q) ≠ [] := by
  have hk := fmtDigits_len q
  have hl := fmtInt_len q
  intro h
  rw [h] at hl
  simp only [List.length_nil] at hl
  omega

theorem fmtInt_digits (q : ℚ) :
    ∀ b ∈ (fmtDigits q).take ((fmtDigits q).length - fmtK q), isDigitByte b = true :=
  fun b hb => fmtDigits_digits q b (List.take_subset _ _ hb)

theorem fmtFrac_digits (q : ℚ) :
    ∀ b ∈ (fmtDigits q).drop ((fmtDigits q).length - fmtK q), isDigitByte b = true :=
  fun b hb => fmtDigits_digits q b (List.drop_subset _ _ hb)

theorem fmtFrac_len (q : ℚ) :
    ((fmtDigits q).drop ((fmtDigits q).length - fmtK q)).length = fmtK q := by
  have hk := fmtDigits_len q
  rw [List.length_drop]
  omega

theorem fmtFrac_ne (q : ℚ) (hk : fmtK q ≠ 0) :
    (fmtDigits q).drop ((fmtDigits q).length - fmtK q) ≠ [] := by
  have hl := fmtFrac_len q
  intro h
  rw [h] at hl
  simp only [List.length_nil] at hl
  omega

theorem fmtSplit (q : ℚ) :
    natOfDigits ((fmtDigits q).take ((fmtDigits q).length - fmtK q)) * 10 ^ fmtK q
      + natOfDigits ((fmtDigits q).drop ((fmtDigits q).length - fmtK q)) = fmtN q := by
  have happ := natOfDigits_append ((fmtDigits q).take ((fmtDigits q).length - fmtK q))
    ((fmtDigits q).drop ((fmtDigits q).length - fmtK q))
  rw [List.take_append_drop, fmtFrac_len] at happ
  rw [← fmtDigits_val q, happ]

/-! ## The arithmetic of the exact rendering -/

theorem finDec_dvd (q : ℚ) (hq : finDec q = true) : q.den ∣ 10 ^ fmtK q := by
  have h : q.den = 2 ^ pfac 2 q.den * 5 ^ pfac 5 q.den := by
    simpa only [finDec, decide_eq_true_eq] using hq
  have h10 : (10 : ℕ) ^ fmtK q = 2 ^ fmtK q * 5 ^ fmtK q := by
    rw [← Nat.mul_pow]
  rw [h, h10]
  exact mul_dvd_mul (pow_dvd_pow 2 (le_max_left _ _)) (pow_dvd_pow 5 (le_max_right _ _))

theorem q_mul_pow_eq (q : ℚ) (hq : finDec q = true) :
    q * (10 : ℚ) ^ fmtK q = ((q.num * (10 ^ fmtK q / q.den : ℕ) : ℤ) : ℚ) := by
  have hdvd := finDec_dvd q hq
  have hden0 : (q.den : ℚ) ≠ 0 := Nat.cast_ne_zero.mpr q.den_nz
  have hc : q.den * (10 ^ fmtK q / q.den) = 10 ^ fmtK q := Nat.mul_div_cancel' hdvd
  have hqden : q * (q.den : ℚ) = (q.num : ℚ) := by
    nth_rewrite 1 [← Rat.num_div_den q]
    exact div_mul_cancel₀ _ hden0
  have h3 : (q.den : ℚ) * ((10 ^ fmtK q / q.den : ℕ) : ℚ) = (10 : ℚ) ^ fmtK q := by
    rw [← Nat.cast_mul, hc]
    push_cast
    ring
  apply mul_right_cancel₀ hden0
  calc q * (10 : ℚ) ^ fmtK q * (q.den : ℚ)
      = q * (q.den : ℚ) * (10 : ℚ) ^ fmtK q := by ring
    _ = (q.num : ℚ) * (10 : ℚ) ^ fmtK q := by rw [hqden]
    _ = (q.num : ℚ) * ((q.den : ℚ) * ((10 ^ fmtK q / q.den : ℕ) : ℚ)) := by rw [h3]
    _ = ((q.num * (10 ^ fmtK q / q.den : ℕ) : ℤ) : ℚ) * (q.den : ℚ) := by
        rw [Int.cast_mul, Int.cast_natCast]
        ring

theorem fmtN_cast (q : ℚ) (hq : finDec q = true) :
    ((if q < 0 then -(fmtN q : ℤ) else (fmtN q : ℤ)) : ℚ) = q * (10 : ℚ) ^ fmtK q := by
  have h := q_mul_pow_eq q hq
  have hN : (fmtN q : ℤ) = (q.num * (10 ^ fmtK q / q.den : ℕ) : ℤ).natAbs := by
    rw [fmtN, h, Rat.intCast_num]
  have hcpos : 0 < (10 ^ fmtK q / q.den : ℕ) :=
    Nat.div_pos (Nat.le_of_dvd (pow_pos (by omega) _) (finDec_dvd q hq)) q.pos
  have hcposZ : (0 : ℤ) < ((10 ^ fmtK q / q.den : ℕ) : ℤ) := by exact_mod_cast hcpos
  by_cases hneg : q < 0
  · have hnum : q.num < 0 := Rat.num_neg.mpr hneg
    have hm : (q.num * (10 ^ fmtK q / q.den : ℕ) : ℤ) ≤ 0 :=
      le_of_lt (mul_neg_of_neg_of_pos hnum hcposZ)
    rw [if_pos hneg, hN, h, Int.ofNat_natAbs_of_nonpos hm]
    push_cast
    ring
  · have hnum : 0 ≤ q.num := Rat.num_nonneg.mpr (le_of_not_lt hneg)
    have hm : 0 ≤ (q.num * (10 ^ fmtK q / q.den : ℕ) : ℤ) :=
      mul_nonneg hnum (le_of_lt hcposZ)
    rw [if_neg hneg, hN, Int.natAbs_of_nonneg hm]
    rw [h]

theorem ratOfLit_fmtNumber (q : ℚ) (hq : finDec q = true) :
    ratOfLit (fmtNumber q) = q := by
  have hcast := fmtN_cast q hq
  have hsplit := fmtSplit q
  have hIne := fmtInt_ne q
  have hIdig := fmtInt_digits q
  have hFdig := fmtFrac_digits q
  have hFlen := fmtFrac_len q
  obtain ⟨d, t, hIdt⟩ := List.exists_cons_of_ne_nil hIne
  have hd : isDigitByte d = true := hIdig d (by rw [hIdt]; simp)
  have hpow_ne : ((10 : ℚ) ^ fmtK q) ≠ 0 := by positivity
  by_cases hk : fmtK q = 0
  · have hIall : (fmtDigits q).take ((fmtDigits q).length - fmtK q) = fmtDigits q := by
      rw [hk, Nat.sub_zero, List.take_length]
    have hFr : (fmtDigits q).drop ((fmtDigits q).length - fmtK q) = [] := by
      rw [hk, Nat.sub_zero, List.drop_length]
    have hval : (natOfDigits (fmtDigits q) : ℚ) = ((fmtN q : ℤ) : ℚ) := by
      rw [hIall, hFr] at hsplit
      rw [hk] at hsplit
      simp only [pow_zero, mul_one] at hsplit
      have hnil : natOfDigits ([] : List Nat) = 0 := rfl
      rw [hnil] at hsplit
      have hval0 : natOfDigits (fmtDigits q) = fmtN q := by omega
      exact_mod_cast hval0
    by_cases hneg : q < 0
    · have hfmt : fmtNumber q = 45 :: fmtDigits q := by
        simp [fmtNumber, if_pos hneg, hk, hIall]
      rw [hfmt, ratOfLit_neg, ratOfLitAbs_digits (fmtDigits_digits q), hval]
      rw [if_pos hneg] at hcast
      rw [hk, pow_zero, mul_one] at hcast
      push_cast at hcast ⊢
      linarith
    · have hfmt : fmtNumber q = fmtDigits q := by
        simp [fmtNumber, if_neg hneg, hk, hIall]
      rw [hfmt, ratOfLit_head_digit (by rw [← hIall, hIdt]; simp) hd,
        ratOfLitAbs_digits (fmtDigits_digits q), hval]
      rw [if_neg hneg] at hcast
      rw [hk, pow_zero, mul_one] at hcast
      exact hcast
  · have hFne := fmtFrac_ne q hk
    have habs : ratOfLitAbs ((fmtDigits q).take ((fmtDigits q).length - fmtK q)
        ++ 46 :: (fmtDigits q).drop ((fmtDigits q).length - fmtK q))
        = (natOfDigits ((fmtDigits q).take ((fmtDigits q).length - fmtK q)) : ℚ)
          + (natOfDigits ((fmtDigits q).drop ((fmtDigits q).length - fmtK q)) : ℚ)
            / 10 ^ ((fmtDigits q).drop ((fmtDigits q).length - fmtK q)).length :=
      ratOfLitAbs_frac hIdig hFdig
    have hv : (natOfDigits ((fmtDigits q).take ((fmtDigits q).length - fmtK q)) : ℚ)
        + (natOfDigits ((fmtDigits q).drop ((fmtDigits q).length - fmtK q)) : ℚ)
          / 10 ^ ((fmtDigits q).drop ((fmtDigits q).length - fmtK q)).length
        = ((fmtN q : ℤ) : ℚ) / 10 ^ fmtK q := by
      rw [hFlen]
      rw [eq_div_iff hpow_ne, add_mul, div_mul_cancel₀ _ hpow_ne]
      exact_mod_cast hsplit
    by_cases hneg : q < 0
    · have hfmt : fmtNumber q = 45 :: ((fmtDigits q).take ((fmtDigits q).length - fmtK q)
          ++ 46 :: (fmtDigits q).drop ((fmtDigits q).length - fmtK q)) := by
        simp [fmtNumber, if_pos hneg, hk]
      rw [hfmt, ratOfLit_neg, habs, hv]
      rw [if_pos hneg] at hcast
      rw [← neg_div, div_eq_iff hpow_ne]
      exact_mod_cast hcast
    · have hfmt : fmtNumber q = (fmtDigits q).take ((fmtDigits q).length - fmtK q)
          ++ 46 :: (fmtDigits q).drop ((fmtDigits q).length - fmtK q) := by
        simp [fmtNumber, if_neg hneg, hk]
      rw [hfmt, ratOfLit_head_digit (by rw [hIdt]; simp) hd, habs, hv]
      rw [if_neg hneg] at hcast
      rw [div_eq_iff hpow_ne]
      exact hcast

theorem recognize_float_fmt (q : ℚ) {y : Nat} (rest : List Nat)
    (hy : numExtender y = false) :
    recognize_float (fmtNumber q ++ y :: rest) = .ok (y :: rest) (fmtNumber q) := by
  have hIne := fmtInt_ne q
  have hIdig := fmtInt_digits q
  have hFdig := fmtFrac_digits q
  simp only [recognize_float]
  by_cases hk : fmtK q = 0
  · have hIall : (fmtDigits q).take ((fmtDigits q).length - fmtK q) = fmtDigits q := by
      rw [hk, Nat.sub_zero, List.take_length]
    by_cases hneg : q < 0
    · have hfmt : fmtNumber q = 45 :: fmtDigits q := by
        simp [fmtNumber, if_pos hneg, hk, hIall]
      rw [hfmt]
      apply recognizeP_pre
      rw [List.cons_append]
      exact floatBody_digits_neg rest (by rw [← hIall]; exact hIne)
        (fmtDigits_digits q) hy
    · have hfmt : fmtNumber q = fmtDigits q := by
        simp [fmtNumber, if_neg hneg, hk, hIall]
      rw [hfmt]
      apply recognizeP_pre
      exact floatBody_digits rest (by rw [← hIall]; exact hIne) (fmtDigits_digits q) hy
  · have hFne := fmtFrac_ne q hk
    by_cases hneg : q < 0
    · have hfmt : fmtNumber q = 45 :: ((fmtDigits q).take ((fmtDigits q).length - fmtK q)
          ++ 46 :: (fmtDigits q).drop ((fmtDigits q).length - fmtK q)) := by
        simp [fmtNumber, if_pos hneg, hk]
      rw [hfmt]
      apply recognizeP_pre
      rw [List.cons_append, List.append_assoc, List.cons_append]
      exact floatBody_frac_neg rest hIne hIdig hFne hFdig hy
    · have hfmt : fmtNumber q = (fmtDigits q).take ((fmtDigits q).length - fmtK q)
          ++ 46 :: (fmtDigits q).drop ((fmtDigits q).length - fmtK q) := by
        simp [fmtNumber, if_neg hneg, hk]
      rw [hfmt]
      apply recognizeP_pre
      rw [List.append_assoc, List.cons_append]
      exact floatBody_frac rest hIne hIdig hFne hFdig hy

theorem double_fmt (q : ℚ) (hq : finDec q = true) {y : Nat} (rest : List Nat)
    (hy : numExtender y = false) :
    double (fmtNumber q ++ y :: rest) = .ok (y :: rest) q := by
  rw [double_pre (recognize_float_fmt q rest hy), ratOfLit_fmtNumber q hq]

theorem parse_json_number_fmt (q : ℚ) (hq : finDec q = true) {y : Nat} (rest : List Nat)
    (hy : numExtender y = false) :
    parse_json_number (fmtNumber q ++ y :: rest) = .ok (y :: rest) (.Number q) := by
  simp only [parse_json_number]
  exact pmap_ok (double_fmt q hq rest hy)

/-! ## Dispatch: which alternative of `Element` fires on which head byte -/

theorem parse_json_number_not_start {b : Nat} (rest : List Nat)
    (hb : numStartByte b = false) : parse_json_number (b :: rest) = .malformed := by
  have hparts : isDigitByte b = false ∧ b ≠ 43 ∧ b ≠ 45 ∧ b ≠ 46 := by
    simp only [numStartByte, Bool.or_eq_false_iff, beq_eq_false_iff_ne, ne_eq] at hb
    exact ⟨hb.1.1.1, hb.1.1.2, hb.1.2, hb.2⟩
  obtain ⟨hbd, hb43, hb45, hb46⟩ := hparts
  apply pmap_mal
  apply pbind_mal
  simp only [recognize_float]
  have hbody : floatBody (b :: rest) = .malformed := by
    simp only [floatBody]
    have hsign : optP signAlt (b :: rest) = .ok (b :: rest) none := by
      apply optP_mal
      simp only [signAlt]
      rw [altP_mal (charP_ne rest hb43)]
      exact charP_ne rest hb45
    rw [pbind_ok hsign]
    apply pbind_mal
    have hA : mantissaA (b :: rest) = .malformed := by
      simp only [mantissaA]
      exact pbind_mal (digitP_head rest hbd)
    have hB : mantissaB (b :: rest) = .malformed := by
      simp only [mantissaB]
      exact pbind_mal (charP_ne rest hb46)
    rw [altP_mal hA]
    exact hB
  simp [recognizeP, hbody]

theorem parse_json_null_head {b : Nat} (rest : List Nat) (hb : b ≠ 110) :
    parse_json_null (b :: rest) = .malformed :=
  pmap_mal (tagP_head_ne [117, 108, 108] rest hb)

theorem parse_json_string_head {b : Nat} (rest : List Nat) (hb : b ≠ 34) :
    parse_json_string (b :: rest) = .malformed := by
  apply pmap_mal
  simp only [parse_json_escaped_string]
  rw [tagP_head_ne [] rest hb]

theorem parse_json_array_head {b : Nat} (elem : P JsonNode)
    (rest : List Nat) (hb : b ≠ 91) :
    parse_json_array elem (b :: rest) = .malformed := by
  simp only [parse_json_array]
  rw [tagP_head_ne [] rest hb]

theorem parse_json_object_head {b : Nat} (elem : P JsonNode) (rest : List Nat)
    (hb : b ≠ 123) :
    parse_json_object elem (b :: rest) = .malformed := by
  simp only [parse_json_object]
  rw [tagP_head_ne [] rest hb]

theorem parse_json_pair_closer (elem : P JsonNode) {b : Nat} (rest : List Nat)
    (hb : b ≠ 34) : parse_json_pair elem (b :: rest) = .malformed := by
  simp only [parse_json_pair, parse_json_escaped_string]
  rw [tagP_head_ne [] rest hb]

theorem parse_json_element_closer (fuel : Nat) {b : Nat} (rest : List Nat)
    (hb : b = 93 ∨ b = 125) : parse_json_element fuel (b :: rest) = .malformed := by
  have hb110 : b ≠ 110 := by rcases hb with rfl | rfl <;> decide
  have hb34 : b ≠ 34 := by rcases hb with rfl | rfl <;> decide
  have hb91 : b ≠ 91 := by rcases hb with rfl | rfl <;> decide
  have hb123 : b ≠ 123 := by rcases hb with rfl | rfl <;> decide
  have hbn : numStartByte b = false := by rcases hb with rfl | rfl <;> decide
  cases fuel with
  | zero => rfl
  | succ f =>
    simp only [parse_json_element]
    rw [altP_mal (parse_json_null_head rest hb110)]
    rw [altP_mal (parse_json_number_not_start rest hbn)]
    rw [altP_mal (parse_json_string_head rest hb34)]
    rw [altP_mal (parse_json_array_head _ rest hb91)]
    exact parse_json_object_head _ rest hb123

/-! ## Support for the round-trip induction -/

theorem completeP_ok {α : Type} {p : P α} {input rest : List Nat} {a : α}
    (h : p input = .ok rest a) : completeP p input = .ok rest a := by
  simp [completeP, h]

theorem completeP_mal {α : Type} {p : P α} {input : List Nat}
    (h : p input = .malformed) : completeP p input = .malformed := by
  simp [completeP, h]

theorem fmtNumber_length_pos (q : ℚ) : 0 < (fmtNumber q).length := by
  have h := fmtInt_ne q
  have hpos : 0 < ((fmtDigits q).take ((fmtDigits q).length - fmtK q)).length := by
    cases hc : (fmtDigits q).take ((fmtDigits q).length - fmtK q) with
    | nil => exact absurd hc h
    | cons a t => simp
  simp only [fmtNumber, List.length_append]
  omega

theorem encode_length_pos : ∀ v : JsonNode, 0 < (encode v).length
  | .Number q => fmtNumber_length_pos q
  | .String s => by simp [encode]
  | .Array a => by simp [encode]
  | .Object o => by simp [encode]
  | .Null => by simp [encode]

theorem fmtNumber_head (q : ℚ) :
    ∃ b t, fmtNumber q = b :: t ∧ (b = 45 ∨ isDigitByte b = true) := by
  obtain ⟨d, t0, hIdt⟩ := List.exists_cons_of_ne_nil (fmtInt_ne q)
  have hd : isDigitByte d = true := fmtInt_digits q d (by rw [hIdt]; simp)
  by_cases hneg : q < 0
  · have hfmt : fmtNumber q = 45 :: ((fmtDigits q).take ((fmtDigits q).length - fmtK q)
        ++ (if fmtK q = 0 then []
            else 46 :: (fmtDigits q).drop ((fmtDigits q).length - fmtK q))) := by
      simp [fmtNumber, if_pos hneg]
    exact ⟨45, _, hfmt, Or.inl rfl⟩
  · have hfmt : fmtNumber q = d :: (t0
        ++ (if fmtK q = 0 then []
            else 46 :: (fmtDigits q).drop ((fmtDigits q).length - fmtK q))) := by
      simp only [fmtNumber, if_neg hneg, List.nil_append, hIdt, List.cons_append]
    exact ⟨d, _, hfmt, Or.inr hd⟩

theorem numOk_cons {v : JsonNode} {b : Nat} (r : List Nat) (hb : numExtender b = false) :
    numOk v (b :: r) = true := by
  cases v <;> simp [numOk, hb]

theorem sep_head_items (tl : JsonItems) (rest : List Nat) (v : JsonNode) :
    numOk v (encItemsSep tl ++ 93 :: rest) = true := by
  cases tl with
  | nil => exact numOk_cons rest (by decide)
  | cons e t =>
    show numOk v ((44 :: (encode e ++ encItemsSep t)) ++ 93 :: rest) = true
    rw [List.cons_append]
    exact numOk_cons _ (by decide)

theorem sep_head_pairs (tl : JsonPairs) (rest : List Nat) (v : JsonNode) :
    numOk v (encPairsSep tl ++ 125 :: rest) = true := by
  cases tl with
  | nil => exact numOk_cons rest (by decide)
  | cons k w t =>
    show numOk v ((44 :: ((34 :: k ++ [34] ++ 58 :: encode w) ++ encPairsSep t))
      ++ 125 :: rest) = true
    rw [List.cons_append]
    exact numOk_cons _ (by decide)

theorem itemsCount_le : ∀ tl : JsonItems, itemsCount tl ≤ (encItemsSep tl).length
  | .nil => by simp [itemsCount, encItemsSep]
  | .cons e tl => by
    have ih := itemsCount_le tl
    simp only [itemsCount, encItemsSep, List.length_cons, List.length_append]
    omega

theorem pairsCount_le : ∀ tl : JsonPairs, pairsCount tl ≤ (encPairsSep tl).length
  | .nil => by simp [pairsCount, encPairsSep]
  | .cons k v tl => by
    have ih := pairsCount_le tl
    simp only [pairsCount, encPairsSep, List.length_cons, List.length_append]
    omega

theorem toItems_reparse : ∀ items : JsonItems,
    toItems (reparseItemsList items) = reparseItems items
  | .nil => rfl
  | .cons e tl => by
    simp only [reparseItemsList, toItems, reparseItems]
    rw [toItems_reparse tl]

/-! ## The round trip: parsing a rendered value -/

mutual

theorem rt_node : ∀ (v : JsonNode) (fuel : Nat) (rest : List Nat),
    good v = true → depth v ≤ fuel → numOk v rest = true →
    parse_json_element fuel (encode v ++ rest) = .ok rest (reparse v)
  | .Null, fuel, rest, _, hf, _ => by
    obtain ⟨f, rfl⟩ : ∃ f, fuel = f + 1 := by
      refine ⟨fuel - 1, ?_⟩
      simp only [depth] at hf
      omega
    simp only [parse_json_element, encode, reparse]
    exact altP_ok (pmap_ok (tagP_self [110, 117, 108, 108] rest))
  | .Number q, fuel, rest, hg, hf, hn => by
    obtain ⟨f, rfl⟩ : ∃ f, fuel = f + 1 := by
      refine ⟨fuel - 1, ?_⟩
      simp only [depth] at hf
      omega
    obtain ⟨y, r, rfl, hy⟩ : ∃ y r, rest = y :: r ∧ numExtender y = false := by
      cases rest with
      | nil => simp [numOk] at hn
      | cons y r => exact ⟨y, r, rfl, by simpa [numOk] using hn⟩
    obtain ⟨b, t, hfmt, hb⟩ := fmtNumber_head q
    have hb110 : b ≠ 110 := by
      rcases hb with rfl | hb
      · decide
      · exact isDigitByte_ne hb (by omega)
    simp only [parse_json_element, encode, reparse]
    rw [hfmt, List.cons_append, altP_mal (parse_json_null_head _ hb110),
      ← List.cons_append, ← hfmt]
    exact altP_ok (parse_json_number_fmt q (by simpa [good] using hg) r hy)
  | .String s, fuel, rest, hg, hf, _ => by
    obtain ⟨f, rfl⟩ : ∃ f, fuel = f + 1 := by
      refine ⟨fuel - 1, ?_⟩
      simp only [depth] at hf
      omega
    simp only [parse_json_element, encode, reparse]
    have hshape : (34 :: s ++ [34]) ++ rest = 34 :: (s ++ 34 :: rest) := by simp
    rw [hshape]
    rw [altP_mal (parse_json_null_head _ (by decide))]
    rw [altP_mal (parse_json_number_not_start _ (by decide))]
    exact altP_ok (pmap_ok (parse_json_escaped_string_rt rest (by simpa [good] using hg)))
  | .Array items, fuel, rest, hg, hf, _ => by
    obtain ⟨f, rfl⟩ : ∃ f, fuel = f + 1 := by
      refine ⟨fuel - 1, ?_⟩
      simp only [depth] at hf
      omega
    have hdi : depthItems items ≤ f := by
      simp only [depth] at hf
      omega
    have hgi : goodItems items = true := by simpa [good] using hg
    simp only [parse_json_element, encode, reparse]
    have hshape : (91 :: encItems items ++ [93]) ++ rest
        = 91 :: (encItems items ++ 93 :: rest) := by simp
    rw [hshape]
    rw [altP_mal (parse_json_null_head _ (by decide))]
    rw [altP_mal (parse_json_number_not_start _ (by decide))]
    rw [altP_mal (parse_json_string_head _ (by decide))]
    apply altP_ok
    have htag91 : tagP [91] (91 :: (encItems items ++ 93 :: rest))
        = .ok (encItems items ++ 93 :: rest) () := tagP_self [91] _
    have htag93 : tagP [93] (93 :: rest) = .ok rest () := tagP_self [93] rest
    cases items with
    | nil =>
      have hsl : separated_list (completeP (tagP [44])) (completeP (parse_json_element f))
          (93 :: rest) = .ok (93 :: rest) [] := by
        have helem : completeP (parse_json_element f) (93 :: rest) = .malformed :=
          completeP_mal (parse_json_element_closer f rest (Or.inl rfl))
        simp only [separated_list, helem]
      have hopt : optP (separated_list (completeP (tagP [44]))
          (completeP (parse_json_element f))) (93 :: rest)
          = .ok (93 :: rest) (some []) := optP_ok hsl
      simp only [encItems, List.nil_append] at htag91 ⊢
      simp only [parse_json_array, htag91, hopt, htag93]
      simp [reparseItems, toItems]
    | cons e tl =>
      have hge : good e = true := by
        simp only [goodItems, Bool.and_eq_true] at hgi
        exact hgi.1
      have hgt : goodItems tl = true := by
        simp only [goodItems, Bool.and_eq_true] at hgi
        exact hgi.2
      have hde : depth e ≤ f := by
        simp only [depthItems] at hdi
        omega
      have hdt : depthItems tl ≤ f := by
        simp only [depthItems] at hdi
        omega
      have h1 := rt_node e f (encItemsSep tl ++ 93 :: rest) hge hde (sep_head_items tl rest e)
      have hsl : separated_list (completeP (tagP [44])) (completeP (parse_json_element f))
          (encode e ++ (encItemsSep tl ++ 93 :: rest))
          = .ok (93 :: rest) (reparse e :: reparseItemsList tl) := by
        have h2 := rt_items_sep tl f ((encItemsSep tl ++ 93 :: rest).length + 1) rest hgt hdt
          (by
            have := itemsCount_le tl
            simp only [List.length_append]
            omega)
        simp only [separated_list, completeP_ok h1]
        rw [if_pos (by
          simp only [List.length_append]
          have := encode_length_pos e
          omega)]
        simp only [h2]
      have hopt : optP (separated_list (completeP (tagP [44]))
          (completeP (parse_json_element f))) (encode e ++ (encItemsSep tl ++ 93 :: rest))
          = .ok (93 :: rest) (some (reparse e :: reparseItemsList tl)) := optP_ok hsl
      have hshape2 : encItems (.cons e tl) ++ 93 :: rest
          = encode e ++ (encItemsSep tl ++ 93 :: rest) := by
        simp [encItems]
      rw [hshape2] at htag91
      simp only [parse_json_array, hshape2, htag91, hopt, htag93]
      simp only [reparseItems, toItems]
      rw [toItems_reparse tl]
  | .Object pairs, fuel, rest, hg, hf, _ => by
    obtain ⟨f, rfl⟩ : ∃ f, fuel = f + 1 := by
      refine ⟨fuel - 1, ?_⟩
      simp only [depth] at hf
      omega
    have hdp : depthPairs pairs ≤ f := by
      simp only [depth] at hf
      omega
    have hgp : goodPairs pairs = true := by
      simp only [good, Bool.and_eq_true] at hg
      exact hg.2
    simp only [parse_json_element, encode, reparse]
    have hshape : (123 :: encPairs pairs ++ [125]) ++ rest
        = 123 :: (encPairs pairs ++ 125 :: rest) := by simp
    rw [hshape]
    rw [altP_mal (parse_json_null_head _ (by decide))]
    rw [altP_mal (parse_json_number_not_start _ (by decide))]
    rw [altP_mal (parse_json_string_head _ (by decide))]
    rw [altP_mal (parse_json_array_head _ _ (by decide))]
    have htag123 : tagP [123] (123 :: (encPairs pairs ++ 125 :: rest))
        = .ok (encPairs pairs ++ 125 :: rest) () := tagP_self [123] _
    have htag125 : tagP [125] (125 :: rest) = .ok rest () := tagP_self [125] rest
    cases pairs with
    | nil =>
      have hsl : separated_list (completeP (tagP [44]))
          (completeP (parse_json_pair (parse_json_element f)))
          (125 :: rest) = .ok (125 :: rest) [] := by
        have helem : completeP (parse_json_pair (parse_json_element f)) (125 :: rest)
            = .malformed :=
          completeP_mal (parse_json_pair_closer (parse_json_element f) rest (by decide))
        simp only [separated_list, helem]
      have hopt := optP_ok hsl
      simp only [encPairs, List.nil_append] at htag123 ⊢
      simp only [parse_json_object, htag123, hopt, htag125]
      simp [reparsePairsList, buildObject]
    | cons k v tl =>
      have hck : cleanStr k = true := by
        simp only [goodPairs, Bool.and_eq_true] at hgp
        exact hgp.1.1
      have hgv : good v = true := by
        simp only [goodPairs, Bool.and_eq_true] at hgp
        exact hgp.1.2
      have hgt : goodPairs tl = true := by
        simp only [goodPairs, Bool.and_eq_true] at hgp
        exact hgp.2
      have hdv : depth v ≤ f := by
        simp only [depthPairs] at hdp
        omega
      have hdt : depthPairs tl ≤ f := by
        simp only [depthPairs] at hdp
        omega
      have h1 := rt_pair k v f (encPairsSep tl ++ 125 :: rest) hck hgv hdv
        (sep_head_pairs tl rest v)
      have hshape2 : encPairs (.cons k v tl) ++ 125 :: rest
          = 34 :: (k ++ 34 :: (58 :: (encode v ++ (encPairsSep tl ++ 125 :: rest)))) := by
        simp [encPairs]
      have hsl : separated_list (completeP (tagP [44]))
          (completeP (parse_json_pair (parse_json_element f)))
          (34 :: (k ++ 34 :: (58 :: (encode v ++ (encPairsSep tl ++ 125 :: rest)))))
          = .ok (125 :: rest) ((k, reparse v) :: reparsePairsList tl) := by
        have h2 := rt_pairs_sep tl f ((encPairsSep tl ++ 125 :: rest).length + 1) rest hgt hdt
          (by
            have := pairsCount_le tl
            simp only [List.length_append]
            omega)
        simp only [separated_list, completeP_ok h1]
        rw [if_pos (by
          simp only [List.length_cons, List.length_append]
          omega)]
        simp only [h2]
      have hopt := optP_ok hsl
      rw [hshape2] at htag123
      simp only [parse_json_object, hshape2, htag123, hopt, htag125]
      simp only [reparsePairsList, buildObject]
  termination_by v _ _ _ _ _ => sizeOf v

theorem rt_items_sep : ∀ (tl : JsonItems) (fuel fuelS : Nat) (rest : List Nat),
    goodItems tl = true → depthItems tl ≤ fuel → itemsCount tl < fuelS →
    sepTailF fuelS (completeP (tagP [44])) (completeP (parse_json_element fuel))
      (encItemsSep tl ++ 93 :: rest) = .ok (93 :: rest) (reparseItemsList tl)
  | .nil, fuel, fuelS, rest, _, _, hfS => by
    obtain ⟨fS, rfl⟩ : ∃ fS, fuelS = fS + 1 := ⟨fuelS - 1, by omega⟩
    have hsep : completeP (tagP [44]) (93 :: rest) = .malformed :=
      completeP_mal (tagP_head_ne [] rest (by decide))
    simp only [encItemsSep, List.nil_append, sepTailF, hsep]
    rfl
  | .cons e tl, fuel, fuelS, rest, hg, hd, hfS => by
    obtain ⟨fS, rfl⟩ : ∃ fS, fuelS = fS + 1 := ⟨fuelS - 1, by omega⟩
    have hge : good e = true := by
      simp only [goodItems, Bool.and_eq_true] at hg
      exact hg.1
    have hgt : goodItems tl = true := by
      simp only [goodItems, Bool.and_eq_true] at hg
      exact hg.2
    have hde : depth e ≤ fuel := by
      simp only [depthItems] at hd
      omega
    have hdt : depthItems tl ≤ fuel := by
      simp only [depthItems] at hd
      omega
    have hshape : encItemsSep (.cons e tl) ++ 93 :: rest
        = 44 :: (encode e ++ (encItemsSep tl ++ 93 :: rest)) := by
      simp [encItemsSep]
    have hsep : completeP (tagP [44]) (44 :: (encode e ++ (encItemsSep tl ++ 93 :: rest)))
        = .ok (encode e ++ (encItemsSep tl ++ 93 :: rest)) () :=
      completeP_ok (tagP_self [44] _)
    have h1 := rt_node e fuel (encItemsSep tl ++ 93 :: rest) hge hde (sep_head_items tl rest e)
    have h2 := rt_items_sep tl fuel fS rest hgt hdt (by
      simp only [itemsCount] at hfS
      omega)
    rw [hshape]
    simp only [sepTailF, hsep, completeP_ok h1]
    rw [if_pos (by
      simp only [List.length_cons, List.length_append]
      have := encode_length_pos e
      omega)]
    simp only [h2, reparseItemsList]
  termination_by tl _ _ _ _ _ _ => sizeOf tl

theorem rt_pairs_sep : ∀ (tl : JsonPairs) (fuel fuelS : Nat) (rest : List Nat),
    goodPairs tl = true → depthPairs tl ≤ fuel → pairsCount tl < fuelS →
    sepTailF fuelS (completeP (tagP [44])) (completeP (parse_json_pair (parse_json_element fuel)))
      (encPairsSep tl ++ 125 :: rest) = .ok (125 :: rest) (reparsePairsList tl)
  | .nil, fuel, fuelS, rest, _, _, hfS => by
    obtain ⟨fS, rfl⟩ : ∃ fS, fuelS = fS + 1 := ⟨fuelS - 1, by omega⟩
    have hsep : completeP (tagP [44]) (125 :: rest) = .malformed :=
      completeP_mal (tagP_head_ne [] rest (by decide))
    simp only [encPairsSep, List.nil_append, sepTailF, hsep]
    rfl
  | .cons k v tl, fuel, fuelS, rest, hg, hd, hfS => by
    obtain ⟨fS, rfl⟩ : ∃ fS, fuelS = fS + 1 := ⟨fuelS - 1, by omega⟩
    have hck : cleanStr k = true := by
      simp only [goodPairs, Bool.and_eq_true] at hg
      exact hg.1.1
    have hgv : good v = true := by
      simp only [goodPairs, Bool.and_eq_true] at hg
      exact hg.1.2
    have hgt : goodPairs tl = true := by
      simp only [goodPairs, Bool.and_eq_true] at hg
      exact hg.2
    have hdv : depth v ≤ fuel := by
      simp only [depthPairs] at hd
      omega
    have hdt : depthPairs tl ≤ fuel := by
      simp only [depthPairs] at hd
      omega
    have hshape : encPairsSep (.cons k v tl) ++ 125 :: rest
        = 44 :: (34 :: (k ++ 34 :: (58 :: (encode v ++ (encPairsSep tl ++ 125 :: rest))))) := by
      simp [encPairsSep]
    have hsep : completeP (tagP [44])
        (44 :: (34 :: (k ++ 34 :: (58 :: (encode v ++ (encPairsSep tl ++ 125 :: rest))))))
        = .ok (34 :: (k ++ 34 :: (58 :: (encode v ++ (encPairsSep tl ++ 125 :: rest))))) () :=
      completeP_ok (tagP_self [44] _)
    have h1 := rt_pair k v fuel (encPairsSep tl ++ 125 :: rest) hck hgv hdv
      (sep_head_pairs tl rest v)
    have h2 := rt_pairs_sep tl fuel fS rest hgt hdt (by
      simp only [pairsCount] at hfS
      omega)
    rw [hshape]
    simp only [sepTailF, hsep, completeP_ok h1]
    rw [if_pos (by
      simp only [List.length_cons, List.length_append]
      omega)]
    simp only [h2, reparsePairsList]
  termination_by tl _ _ _ _ _ _ => sizeOf tl
  decreasing_by
    all_goals simp_wf
    have hk1 : 1 ≤ sizeOf k := by cases k <;> simp_arith
    omega

theorem rt_pair : ∀ (k : List Nat) (v : JsonNode) (fuel : Nat) (rest : List Nat),
    cleanStr k = true → good v = true → depth v ≤ fuel → numOk v rest = true →
    parse_json_pair (parse_json_element fuel)
      (34 :: (k ++ 34 :: (58 :: (encode v ++ rest)))) = .ok rest (k, reparse v)
  | k, v, fuel, rest, hck, hgv, hdv, hnv => by
    have hstr := parse_json_escaped_string_rt (58 :: (encode v ++ rest)) hck
    have htag58 : tagP [58] (58 :: (encode v ++ rest)) = .ok (encode v ++ rest) () :=
      tagP_self [58] _
    have h1 := rt_node v fuel rest hgv hdv hnv
    simp only [parse_json_pair, hstr, htag58, h1]
  termination_by k v _ _ _ _ _ _ => 1 + sizeOf v

end

/-! ## The rendering is long enough to fuel the parser -/

mutual

theorem depth_le_encode : ∀ v : JsonNode, depth v ≤ (encode v).length
  | .Null => by simp [depth, encode]
  | .Number q => by
    have := fmtNumber_length_pos q
    simp only [depth, encode]
    omega
  | .String s => by simp [depth, encode]
  | .Array items => by
    cases items with
    | nil => simp [depth, depthItems, encode]
    | cons e tl =>
      have h1 := depth_le_encode e
      have h2 := depthItems_le_sep tl
      simp only [depth, depthItems, encode, encItems, List.length_cons, List.length_append]
      omega
  | .Object pairs => by
    cases pairs with
    | nil => simp [depth, depthPairs, encode]
    | cons k v tl =>
      have h1 := depth_le_encode v
      have h2 := depthPairs_le_sep tl
      simp only [depth, depthPairs, encode, encPairs, List.length_cons, List.length_append]
      omega
  termination_by v => sizeOf v

theorem depthItems_le_sep : ∀ tl : JsonItems, depthItems tl ≤ (encItemsSep tl).length
  | .nil => by simp [depthItems, encItemsSep]
  | .cons e tl => by
    have h1 := depth_le_encode e
    have h2 := depthItems_le_sep tl
    simp only [depthItems, encItemsSep, List.length_cons, List.length_append]
    omega
  termination_by tl => sizeOf tl

theorem depthPairs_le_sep : ∀ tl : JsonPairs, depthPairs tl ≤ (encPairsSep tl).length
  | .nil => by simp [depthPairs, encPairsSep]
  | .cons k v tl => by
    have h1 := depth_le_encode v
    have h2 := depthPairs_le_sep tl
    simp only [depthPairs, encPairsSep, List.length_cons, List.length_append]
    omega
  termination_by tl => sizeOf tl

end

/-! ## The rebuilt map equals the original, as `HashMap`s compare -/

theorem hmContains_hmInsert (m : JsonPairs) (k : List Nat) (v : JsonNode) (kq : List Nat) :
    hmContains (hmInsert m k v) kq = (decide (k = kq) || hmContains m kq) := by
  induction m using JsonPairs.indOnPairs with
  | base => simp [hmInsert, hmContains]
  | step k0 v0 tl ih =>
    by_cases h1 : k0 = k
    · subst h1
      simp only [hmInsert, if_pos rfl, hmContains]
      by_cases h2 : k0 = kq
      · subst h2
        simp
      · simp [h2]
    · simp only [hmInsert, if_neg h1, hmContains, ih]
      by_cases h2 : k0 = kq
      · subst h2
        simp
      · simp [h2]

theorem hmLen_hmInsert_new (m : JsonPairs) (k : List Nat) (v : JsonNode)
    (h : hmContains m k = false) : hmLen (hmInsert m k v) = hmLen m + 1 := by
  induction m using JsonPairs.indOnPairs with
  | base => rfl
  | step k0 v0 tl ih =>
    simp only [hmContains, Bool.or_eq_false_iff, decide_eq_false_iff_not] at h
    simp only [hmInsert, if_neg h.1, hmLen]
    rw [ih h.2]

theorem pairsSub_hmInsert {m o : JsonPairs} {k : List Nat} {v w : JsonNode}
    (hm : pairsSub m o = true) (hw : hmGet o k = some w) (hvw : nodeEq v w = true) :
    pairsSub (hmInsert m k v) o = true := by
  induction m using JsonPairs.indOnPairs with
  | base =>
    simp [hmInsert, pairsSub, hw, hvw]
  | step k0 v0 tl ih =>
    simp only [pairsSub, Bool.and_eq_true] at hm
    by_cases h1 : k0 = k
    · subst h1
      simp only [hmInsert, if_pos rfl, pairsSub, Bool.and_eq_true, hw, hvw]
      exact ⟨trivial, hm.2⟩
    · simp only [hmInsert, if_neg h1, pairsSub, Bool.and_eq_true]
      exact ⟨hm.1, ih hm.2⟩

theorem pairsSub_cons {m : JsonPairs} {k : List Nat} {v : JsonNode} {tl : JsonPairs}
    (hnc : hmContains m k = false) (hm : pairsSub m tl = true) :
    pairsSub m (.cons k v tl) = true := by
  induction m using JsonPairs.indOnPairs with
  | base => rfl
  | step k0 v0 m ih =>
    simp only [hmContains, Bool.or_eq_false_iff, decide_eq_false_iff_not] at hnc
    simp only [pairsSub, Bool.and_eq_true] at hm
    simp only [pairsSub, Bool.and_eq_true, hmGet]
    refine ⟨?_, ih hnc.2 hm.2⟩
    rw [if_neg (fun h => hnc.1 h.symm)]
    exact hm.1

theorem hmContains_build : ∀ (tl : JsonPairs) (kk : List Nat),
    hmContains (buildObject (reparsePairsList tl)) kk = hmContains tl kk
  | .nil, kk => rfl
  | .cons k v tl, kk => by
    simp only [reparsePairsList, buildObject, hmContains_hmInsert, hmContains,
      hmContains_build tl kk]

theorem hmLen_build : ∀ tl : JsonPairs, keysDistinct tl = true →
    hmLen (buildObject (reparsePairsList tl)) = hmLen tl
  | .nil, _ => rfl
  | .cons k v tl, hd => by
    have hparts : hmContains tl k = false ∧ keysDistinct tl = true := by
      simpa only [keysDistinct, Bool.and_eq_true, Bool.not_eq_true'] using hd
    simp only [reparsePairsList, buildObject, hmLen]
    rw [hmLen_hmInsert_new _ _ _ (by rw [hmContains_build tl k]; exact hparts.1)]
    rw [hmLen_build tl hparts.2]

mutual

theorem eqv_node : ∀ v : JsonNode, good v = true → nodeEq (reparse v) v = true
  | .Null, _ => rfl
  | .Number q, _ => by simp [reparse, nodeEq]
  | .String s, _ => by simp [reparse, nodeEq]
  | .Array items, hg => by
    simp only [reparse, nodeEq]
    exact eqv_items items (by simpa [good] using hg)
  | .Object pairs, hg => by
    have hd : keysDistinct pairs = true := by
      simp only [good, Bool.and_eq_true] at hg
      exact hg.1
    have hgp : goodPairs pairs = true := by
      simp only [good, Bool.and_eq_true] at hg
      exact hg.2
    simp only [reparse, nodeEq, Bool.and_eq_true]
    constructor
    · rw [hmLen_build pairs hd]
      simp
    · exact eqv_build pairs hd hgp
  termination_by v _ => sizeOf v

theorem eqv_items : ∀ items : JsonItems, goodItems items = true →
    itemsEq (reparseItems items) items = true
  | .nil, _ => rfl
  | .cons e tl, hg => by
    have hparts : good e = true ∧ goodItems tl = true := by
      simpa only [goodItems, Bool.and_eq_true] using hg
    simp only [reparseItems, itemsEq, Bool.and_eq_true]
    exact ⟨eqv_node e hparts.1, eqv_items tl hparts.2⟩
  termination_by items _ => sizeOf items

theorem eqv_build : ∀ pairs : JsonPairs, keysDistinct pairs = true → goodPairs pairs = true →
    pairsSub (buildObject (reparsePairsList pairs)) pairs = true
  | .nil, _, _ => rfl
  | .cons k v tl, hd, hg => by
    have hdparts : hmContains tl k = false ∧ keysDistinct tl = true := by
      simpa only [keysDistinct, Bool.and_eq_true, Bool.not_eq_true'] using hd
    have hgparts : (cleanStr k = true ∧ good v = true) ∧ goodPairs tl = true := by
      simpa only [goodPairs, Bool.and_eq_true] using hg
    simp only [reparsePairsList, buildObject]
    apply pairsSub_hmInsert
    · apply pairsSub_cons
      · rw [hmContains_build tl k]
        exact hdparts.1
      · exact eqv_build tl hdparts.2 hgparts.2
    · show hmGet (.cons k v tl) k = some v
      simp [hmGet]
    · exact eqv_node v hgparts.1.2
  termination_by pairs _ _ => sizeOf pairs

end

/-! ## The round trip (claim C1) -/

/-- C1 counterexample: the tree `Number 0` contains no string at all, so
it satisfies the claim's restriction, yet decoding its rendering `0`
does not succeed: the streaming number parser cannot rule out further
digits at the end of the input and returns `Incomplete`, and
`from_bytes` panics. -/
theorem C1_counterexample :
    good (.Number 0) = true
    ∧ parse_json (encode (.Number 0)) = .incomplete
    ∧ from_bytes (encode (.Number 0)) = none :=
  ⟨by with_unfolding_all rfl, by with_unfolding_all rfl, by with_unfolding_all rfl⟩

/-- C1 as amended: for every `Value` tree whose strings and object keys
contain no control characters, quotes or backslashes (and are valid
UTF-8, as any Rust `String` is), whose object keys are unique, whose
number payloads are finite decimals (as every `f64` value is) — and
whose **root is not a number**, since a bare top-level number rendering
decodes to `Incomplete` — decoding the serialized text succeeds,
consumes the whole input, and yields a value equal to `v` under the
derived `PartialEq` (objects compared as `HashMap`s, order-insensitively;
`numOk v []` states exactly that the root is no `Number`). -/
theorem C1_roundtrip (v : JsonNode) (hg : good v = true) (hnum : numOk v [] = true) :
    parse_json (encode v) = .ok [] (reparse v) ∧ nodeEq (reparse v) v = true := by
  constructor
  · have h := rt_node v ((encode v).length + 1) [] hg
      (le_trans (depth_le_encode v) (by omega)) hnum
    rw [List.append_nil] at h
    simpa [parse_json] using h
  · exact eqv_node v hg

/-- Witness for C1: a two-key object holding a fractional number, an
array with `null`, a string and an integer, decoded back from its
rendering and compared equal. -/
theorem C1_witness :
    parse_json (encode (JsonNode.Object (JsonPairs.cons [97] (JsonNode.Number (3/2)) (JsonPairs.cons [98] (JsonNode.Array (JsonItems.cons JsonNode.Null (JsonItems.cons (JsonNode.String [104, 105]) (JsonItems.cons (JsonNode.Number 7) JsonItems.nil)))) JsonPairs.nil))))
      = .ok [] (reparse (JsonNode.Object (JsonPairs.cons [97] (JsonNode.Number (3/2)) (JsonPairs.cons [98] (JsonNode.Array (JsonItems.cons JsonNode.Null (JsonItems.cons (JsonNode.String [104, 105]) (JsonItems.cons (JsonNode.Number 7) JsonItems.nil)))) JsonPairs.nil))))
    ∧ nodeEq (reparse (JsonNode.Object (JsonPairs.cons [97] (JsonNode.Number (3/2)) (JsonPairs.cons [98] (JsonNode.Array (JsonItems.cons JsonNode.Null (JsonItems.cons (JsonNode.String [104, 105]) (JsonItems.cons (JsonNode.Number 7) JsonItems.nil)))) JsonPairs.nil))))
        (JsonNode.Object (JsonPairs.cons [97] (JsonNode.Number (3/2)) (JsonPairs.cons [98] (JsonNode.Array (JsonItems.cons JsonNode.Null (JsonItems.cons (JsonNode.String [104, 105]) (JsonItems.cons (JsonNode.Number 7) JsonItems.nil)))) JsonPairs.nil))) = true :=
  C1_roundtrip _ (by with_unfolding_all rfl) (by with_unfolding_all rfl)
